import Mathlib

/-!
# Concurrent crawl pipeline (go-concurrency-capstone)

A verification development for `examples/go-concurrency-capstone/internal`:
the deduplicating `Frontier`, the in-memory `MemStore`, the link extractor
`ExtractLinks`, the worker pool `Pipeline.Run` and the teaching fixture
`TwoMutexDeadlock`.

Go values are embedded as follows:
* a Go `string` / `[]byte` is its sequence of bytes (`GoString`);
* a `sync.Mutex` is a flag, `true` when locked;
* a buffered `chan string` is its buffer, its capacity and its closed flag;
* an operation that may block for ever or panic returns an `Outcome`;
* goroutines are program counters stepped one at a time by a schedule.
-/

namespace Capstone

/-! ## Go values -/

/-- A Go string: an immutable byte sequence, compared byte for byte. -/
abbrev GoString := List UInt8

/-- The UTF-8 bytes of a string literal. -/
def lit (s : String) : GoString := s.toUTF8.data.toList

/-- What a Go call does: it returns, it blocks for ever, or it panics. -/
inductive Outcome (α : Type) where
  | done (a : α)
  | blocked
  | panic
  deriving DecidableEq, Repr

/-- Sequencing of calls: the second runs only if the first returned. -/
def Outcome.bind {α β : Type} (x : Outcome α) (k : α → Outcome β) : Outcome β :=
  match x with
  | .done a => k a
  | .blocked => .blocked
  | .panic => .panic

instance : Monad Outcome where
  pure := Outcome.done
  bind := Outcome.bind

/-- A `sync.Mutex`: `true` when locked. -/
abbrev Mutex := Bool

/-- `mu.Lock()`: waits while the mutex is locked. -/
def Mutex.Lock (mu : Mutex) : Outcome Mutex :=
  if mu then .blocked else .done true

/-- `mu.Unlock()`: unlocking an unlocked mutex is a fatal error. -/
def Mutex.Unlock (mu : Mutex) : Outcome Mutex :=
  if mu then .done false else .panic

/-- The largest `int32`. -/
def maxInt32 : Int := 2147483647

/-- The `int32` holding the low 32 bits of `x`. -/
def wrapInt32 (x : Int) : Int := (x + 2147483648) % 4294967296 - 2147483648

/-- `wg.Add(delta)` on a `sync.WaitGroup` whose counter is `wg`, an `int32`
kept in the high half of its state word: `delta`, cut to 32 bits, is added to
the counter with wrap-around, and a counter that comes out negative is a
panic. -/
def WaitGroup.Add (wg : Int) (delta : Int) : Outcome Int :=
  let v := wrapInt32 (wg + delta)
  if v < 0 then .panic else .done v

/-- `wg.Done()`, which is `wg.Add(-1)`. -/
def WaitGroup.Done (wg : Int) : Outcome Int := WaitGroup.Add wg (-1)

/-- A buffered `chan string`. -/
structure Chan where
  buf : List GoString
  cap : Nat
  closed : Bool
  deriving DecidableEq, Repr

/-- `make(chan string, n)`. -/
def Chan.make (n : Nat) : Chan := { buf := [], cap := n, closed := false }

/-- `ch <- v`: panics on a closed channel, waits while the buffer is full. -/
def Chan.send (c : Chan) (v : GoString) : Outcome Chan :=
  if c.closed then .panic
  else if c.buf.length < c.cap then .done { c with buf := c.buf ++ [v] }
  else .blocked

/-- `v, ok := <-ch`: the oldest buffered value; on an empty channel the zero
value with `ok = false` once closed, and a wait otherwise. -/
def Chan.recv (c : Chan) : Outcome (Chan × GoString × Bool) :=
  match c.buf with
  | v :: rest => .done ({ c with buf := rest }, v, true)
  | [] => if c.closed then .done (c, [], false) else .blocked

/-- `close(ch)`: closing a closed channel panics. -/
def Chan.close (c : Chan) : Outcome Chan :=
  if c.closed then .panic else .done { c with closed := true }

/-! ## frontier/frontier.go -/

/-- The struct `Frontier`; `seen` holds the keys of the map. -/
structure Frontier where
  mu : Mutex
  seen : Finset GoString
  ch : Chan
  closed : Bool
  deriving DecidableEq

/-- `New(buffer)`. -/
def New (buffer : Int) : Frontier :=
  let buffer := if buffer ≤ 0 then 1 else buffer
  { mu := false, seen := ∅, ch := Chan.make buffer.toNat, closed := false }

/-- `Frontier.Enqueue(url)`, the mutex held from the first line to the
deferred unlock at the return. -/
def Frontier.Enqueue (f : Frontier) (url : GoString) : Outcome (Frontier × Bool) := do
  let mu ← f.mu.Lock
  let f := { f with mu := mu }
  if f.closed then
    let mu ← f.mu.Unlock
    return ({ f with mu := mu }, false)
  if url ∈ f.seen then
    let mu ← f.mu.Unlock
    return ({ f with mu := mu }, false)
  let f := { f with seen := insert url f.seen }
  let ch ← f.ch.send url
  let f := { f with ch := ch }
  let mu ← f.mu.Unlock
  return ({ f with mu := mu }, true)

/-- `Frontier.Channel()`. -/
def Frontier.Channel (f : Frontier) : Chan := f.ch

/-- One receive `u, ok := <-f.Channel()`, the Frontier being left with what
remains in the channel. -/
def Frontier.recv (f : Frontier) : Outcome (Frontier × GoString × Bool) := do
  let (ch, v, ok) ← f.Channel.recv
  return ({ f with ch := ch }, v, ok)

/-- `Frontier.Close()`. -/
def Frontier.Close (f : Frontier) : Outcome Frontier := do
  let mu ← f.mu.Lock
  let f := { f with mu := mu }
  if f.closed then
    let mu ← f.mu.Unlock
    return { f with mu := mu }
  let f := { f with closed := true }
  let mu ← f.mu.Unlock
  let f := { f with mu := mu }
  let ch ← f.ch.close
  return { f with ch := ch }

/-- A call made on a Frontier by its user. -/
inductive Op where
  | enqueue (url : GoString)
  | close
  | recv
  deriving DecidableEq, Repr

/-- One call, its result dropped. -/
def Frontier.apply (f : Frontier) : Op → Outcome Frontier
  | .enqueue url => do let (f, _) ← f.Enqueue url; return f
  | .close => f.Close
  | .recv => do let (f, _, _) ← f.recv; return f

/-- A sequence of calls made one after the other. -/
def Frontier.applyAll (f : Frontier) : List Op → Outcome Frontier
  | [] => .done f
  | op :: ops => do let f ← f.apply op; f.applyAll ops

/-- Enqueue the URLs in order, keeping each call's result. -/
def Frontier.enqueueAll (f : Frontier) : List GoString → Outcome (Frontier × List Bool)
  | [] => .done (f, [])
  | u :: us => do
    let (f, ok) ← f.Enqueue u
    let (f, oks) ← f.enqueueAll us
    return (f, ok :: oks)

/-- Receive `n` times from `Channel()`, keeping each `(value, ok)`. -/
def Frontier.recvN (f : Frontier) : Nat → Outcome (Frontier × List (GoString × Bool))
  | 0 => .done (f, [])
  | n + 1 => do
    let (f, v, ok) ← f.recv
    let (f, rest) ← f.recvN n
    return (f, (v, ok) :: rest)

/-- A Frontier between calls: nobody holds the mutex, and the channel has
been closed exactly when the `closed` flag is set. -/
def Frontier.AtRest (f : Frontier) : Prop :=
  f.mu = false ∧ f.ch.closed = f.closed

instance (f : Frontier) : Decidable f.AtRest := by
  unfold Frontier.AtRest; infer_instance

/-- A Frontier on which a call can start: nobody holds the mutex, and the
channel has not been closed unless the `closed` flag is set (true also between
the two halves of a concurrent `Close`). -/
def Frontier.Callable (f : Frontier) : Prop :=
  f.mu = false ∧ (f.ch.closed = true → f.closed = true)

instance (f : Frontier) : Decidable f.Callable := by
  unfold Frontier.Callable; infer_instance

/-- The states a Frontier made by `New` takes between calls. -/
inductive Reachable : Frontier → Prop where
  | new (buffer : Int) : Reachable (New buffer)
  | step {f f1 : Frontier} (op : Op) : Reachable f → f.apply op = .done f1 → Reachable f1

/-- The input with every later duplicate removed, first occurrences kept in
their order. -/
def firstOccurrences : List GoString → List GoString
  | [] => []
  | u :: us => u :: (firstOccurrences us).filter (fun v => v ≠ u)

/-! ## pipeline/pipeline.go -/

/-- The seeding loop of `Pipeline.Run`:
`for _, s := range seeds { _ = f.Enqueue(s) }`. -/
def seedLoop (f : Frontier) : List GoString → Outcome Frontier
  | [] => .done f
  | s :: rest => do
    let (f, _) ← f.Enqueue s
    seedLoop f rest

/-! ## store/store.go, store/memstore.go -/

/-- The struct `Page`. -/
structure Page where
  URL : GoString
  Bytes : Int
  Links : Int
  deriving DecidableEq, Repr

/-- A Go `error`; `none` is `nil`. -/
abbrev GoError := Option GoString

/-- The struct `MemStore`. -/
structure MemStore where
  mu : Mutex
  pages : List Page
  deriving DecidableEq, Repr

/-- `NewMem()`. -/
def NewMem : MemStore := { mu := false, pages := [] }

/-- `MemStore.Save(p)`: lock, append, unlock, return `nil`. -/
def MemStore.Save (m : MemStore) (p : Page) : Outcome (MemStore × GoError) := do
  let mu ← m.mu.Lock
  let m := { m with mu := mu }
  let m := { m with pages := m.pages ++ [p] }
  let mu ← m.mu.Unlock
  let m := { m with mu := mu }
  return (m, none)

/-- `MemStore.Count()`: lock, read `len(m.pages)`, unlock. -/
def MemStore.Count (m : MemStore) : Outcome (MemStore × Int) := do
  let mu ← m.mu.Lock
  let m := { m with mu := mu }
  let n : Int := m.pages.length
  let mu ← m.mu.Unlock
  let m := { m with mu := mu }
  return (m, n)

/-- The `Save` calls of several callers, applied one whole call after the
other in the order given; each call's result is kept. -/
def MemStore.saveAll (m : MemStore) : List Page → Outcome (MemStore × List GoError)
  | [] => .done (m, [])
  | p :: ps => do
    let (m, e) ← m.Save p
    let (m, es) ← m.saveAll ps
    return (m, e :: es)

/-! ## Goroutines saving into one MemStore -/

namespace StoreConc

/-- Where a goroutine stands inside `MemStore.Save(p)`: before `Lock()`, before
reading `m.pages`, before writing back the appended slice, before `Unlock()`. -/
inductive Pc where
  | idle
  | saveLock (p : Page)
  | saveRead (p : Page)
  | saveWrite (p : Page) (old : List Page)
  | saveUnlock
  deriving DecidableEq, Repr

/-- The statements between `m.mu.Lock()` and `m.mu.Unlock()`. -/
def Pc.holds : Pc → Bool
  | .saveRead _ | .saveWrite _ _ | .saveUnlock => true
  | _ => false

/-- A goroutine: where it stands, and the pages it has still to save. -/
structure Thread where
  pc : Pc
  todo : List Page
  deriving DecidableEq, Repr

/-- One statement of a goroutine on the shared store. -/
def Thread.step (t : Thread) (m : MemStore) : Outcome (Thread × MemStore) :=
  match t.pc with
  | .idle =>
    match t.todo with
    | [] => .blocked
    | p :: rest => .done ({ pc := .saveLock p, todo := rest }, m)
  | .saveLock p => do
    let mu ← m.mu.Lock
    return ({ t with pc := .saveRead p }, { m with mu := mu })
  | .saveRead p => .done ({ t with pc := .saveWrite p m.pages }, m)
  | .saveWrite p old => .done ({ t with pc := .saveUnlock }, { m with pages := old ++ [p] })
  | .saveUnlock => do
    let mu ← m.mu.Unlock
    return ({ t with pc := .idle }, { m with mu := mu })

/-- One store and the goroutines saving into it. -/
structure Sys where
  store : MemStore
  threads : List Thread
  deriving DecidableEq, Repr

/-- Goroutine `i` runs one statement. -/
def Sys.step (i : Nat) (s : Sys) : Outcome Sys :=
  match s.threads[i]? with
  | none => .blocked
  | some t => do
    let (t1, m1) ← t.step s.store
    return { store := m1, threads := s.threads.set i t1 }

/-- An interleaving: the goroutines step in the order listed. -/
def Sys.run : List Nat → Sys → Outcome Sys
  | [], s => .done s
  | i :: rest, s => do
    let s1 ← s.step i
    Sys.run rest s1

/-- A store made by `NewMem` and one goroutine per list of pages to save. -/
def Sys.init (progs : List (List Page)) : Sys :=
  { store := NewMem, threads := progs.map (fun ps => { pc := .idle, todo := ps }) }

/-- Counts 1 for a goroutine standing between `Lock()` and `Unlock()`. -/
def Thread.holding (t : Thread) : Nat := if t.pc.holds then 1 else 0

/-- The pages a goroutine has yet to append. -/
def Thread.pending (t : Thread) : Multiset Page :=
  (match t.pc with
    | .saveLock p | .saveRead p | .saveWrite p _ => {p}
    | _ => 0) + (t.todo : Multiset Page)

/-- Statements a goroutine has yet to run. -/
def Thread.rank (t : Thread) : Nat :=
  (match t.pc with
    | .idle => 0
    | .saveLock _ => 4
    | .saveRead _ => 3
    | .saveWrite _ _ => 2
    | .saveUnlock => 1) + 5 * t.todo.length

/-- What holds of every state of goroutines saving into one store: the mutex
is locked exactly while one goroutine stands between `Lock()` and `Unlock()`;
the slice a goroutine is about to append to is the one stored; and every page
to save is stored or still to be appended by one goroutine. -/
structure Sys.Safe (all : List Page) (s : Sys) : Prop where
  mutex : (s.threads.map Thread.holding).sum = if s.store.mu then 1 else 0
  fresh : ∀ (i : Nat) (t : Thread) (p : Page) (old : List Page),
    s.threads[i]? = some t → t.pc = .saveWrite p old → old = s.store.pages
  pages : (s.store.pages : Multiset Page) + (s.threads.map Thread.pending).sum =
    (all : Multiset Page)

end StoreConc

/-! ## parse/parse.go -/

/-- The class `\s` of Go regular expressions: tab, newline, form feed,
carriage return, space. -/
def isSpace (b : UInt8) : Bool :=
  b == 9 || b == 10 || b == 12 || b == 13 || b == 32

/-- Under `(?i)`, a lower-case ASCII letter of the pattern matches itself and
its upper-case form. -/
def eqFold (b lower : UInt8) : Bool :=
  b == lower || b + 32 == lower

/-- What is left after the longest run matched by `\s*`. -/
def skipSpace : GoString → GoString
  | [] => []
  | b :: t => if isSpace b then skipSpace t else b :: t

/-- The longest run matched by `[^"]*`, and what follows it. -/
def spanNotQuote : GoString → GoString × GoString
  | [] => ([], [])
  | b :: t =>
    if b == 34 then ([], b :: t)
    else ((b :: (spanNotQuote t).1), (spanNotQuote t).2)

/-- A match of `hrefRe`, the pattern `(?i)href\s*=\s*"([^"]+)"`, anchored
at the start of `s`: the text of group 1 and the length of the whole match.
Each repetition is followed by a byte it cannot itself match, so the greedy
choice is the only one. -/
def hrefRe_matchAt (s : GoString) : Option (GoString × Nat) :=
  match s with
  | h :: r :: e :: f :: t =>
    if eqFold h 104 && eqFold r 114 && eqFold e 101 && eqFold f 102 then
      match skipSpace t with
      | 61 :: t1 =>
        match skipSpace t1 with
        | 34 :: t2 =>
          match spanNotQuote t2 with
          | (g, 34 :: t3) => if g = [] then none else some (g, s.length - t3.length)
          | _ => none
        | _ => none
      | _ => none
    else none
  | _ => none

/-- The scan of `FindAllStringSubmatch`: `skip` bytes still belong to the
previous match; otherwise a match is tried here, and the scan resumes after it
or, without one, at the next byte. -/
def hrefRe_scan : Nat → GoString → List (List GoString)
  | _, [] => []
  | skip + 1, _ :: t => hrefRe_scan skip t
  | 0, b :: t =>
    match hrefRe_matchAt (b :: t) with
    | some (g, n) => [(b :: t).take n, g] :: hrefRe_scan (n - 1) t
    | none => hrefRe_scan 0 t

/-- `hrefRe.FindAllStringSubmatch(html, -1)`: the successive leftmost matches,
each as the whole match followed by group 1. -/
def hrefRe_FindAllStringSubmatch (html : GoString) : List (List GoString) :=
  hrefRe_scan 0 html

/-- `isHTTP(s)`. -/
def isHTTP (s : GoString) : Bool :=
  decide (s.length > 7) &&
    (s.take 7 == lit "http://" || (decide (s.length > 8) && s.take 8 == lit "https://"))

/-- The loop of `ExtractLinks` over the matches, `out` being the slice built
so far. -/
def extractLoop (out : List GoString) : List (List GoString) → List GoString
  | [] => out
  | m :: rest =>
    if m.length < 2 then extractLoop out rest
    else
      let href := m.getD 1 []
      if isHTTP href then extractLoop (out ++ [href]) rest
      else extractLoop out rest

/-- `ExtractLinks(html)`. -/
def ExtractLinks (html : GoString) : List GoString :=
  let matches_ := hrefRe_FindAllStringSubmatch html
  extractLoop [] matches_

/-! ## deadlock/deadlock.go -/

namespace TwoMutexDeadlock

/-- Where a goroutine of `TwoMutexDeadlock` stands. The first one takes `a`
then `b`, the second one `b` then `a`. -/
inductive GPc where
  | notStarted
  | waitStart
  | lockFirst
  | lockSecond
  | unlockSecond
  | unlockFirst
  | wgDone
  | exited
  deriving DecidableEq, Repr

/-- Where the body of `TwoMutexDeadlock` stands. -/
inductive MPc where
  | wgAdd
  | go1
  | go2
  | closeStart
  | wgWait
  | returned
  deriving DecidableEq, Repr

/-- The threads of one call. -/
inductive Tid where
  | main
  | g1
  | g2
  deriving DecidableEq, Repr

/-- The variables of one call of `TwoMutexDeadlock` and its three threads. The
counter `wg` only takes the values 0, 1 and 2. -/
structure State where
  startClosed : Bool
  a : Mutex
  b : Mutex
  wg : Int
  main : MPc
  g1 : GPc
  g2 : GPc
  deriving DecidableEq, Repr

/-- The state at the call. -/
def State.init : State :=
  { startClosed := false, a := false, b := false, wg := 0,
    main := .wgAdd, g1 := .notStarted, g2 := .notStarted }

/-- One statement of the body; `none` when it cannot run now. The channel
`start` is open at the call and closed only by the body, once. -/
def stepMain (s : State) : Option State :=
  match s.main with
  | .wgAdd => some { s with wg := s.wg + 2, main := .go1 }
  | .go1 => some { s with g1 := .waitStart, main := .go2 }
  | .go2 => some { s with g2 := .waitStart, main := .closeStart }
  | .closeStart => if s.startClosed then none else some { s with startClosed := true, main := .wgWait }
  | .wgWait => if s.wg = 0 then some { s with main := .returned } else none
  | .returned => none

/-- One statement of the first goroutine; `none` when it cannot run now. -/
def stepG1 (s : State) : Option State :=
  match s.g1 with
  | .notStarted => none
  | .waitStart => if s.startClosed then some { s with g1 := .lockFirst } else none
  | .lockFirst => if s.a then none else some { s with a := true, g1 := .lockSecond }
  | .lockSecond => if s.b then none else some { s with b := true, g1 := .unlockSecond }
  | .unlockSecond => some { s with b := false, g1 := .unlockFirst }
  | .unlockFirst => some { s with a := false, g1 := .wgDone }
  | .wgDone => some { s with wg := s.wg - 1, g1 := .exited }
  | .exited => none

/-- One statement of the second goroutine; `none` when it cannot run now. -/
def stepG2 (s : State) : Option State :=
  match s.g2 with
  | .notStarted => none
  | .waitStart => if s.startClosed then some { s with g2 := .lockFirst } else none
  | .lockFirst => if s.b then none else some { s with b := true, g2 := .lockSecond }
  | .lockSecond => if s.a then none else some { s with a := true, g2 := .unlockSecond }
  | .unlockSecond => some { s with a := false, g2 := .unlockFirst }
  | .unlockFirst => some { s with b := false, g2 := .wgDone }
  | .wgDone => some { s with wg := s.wg - 1, g2 := .exited }
  | .exited => none

/-- One step of the chosen thread. -/
def step (t : Tid) (s : State) : Option State :=
  match t with
  | .main => stepMain s
  | .g1 => stepG1 s
  | .g2 => stepG2 s

/-- An interleaving: the threads step in the order listed. -/
def run : List Tid → State → Option State
  | [], s => some s
  | t :: ts, s => (step t s).bind (run ts)

/-- The interleaving in which the first goroutine runs to its end before the
second takes its first lock. -/
def serialSchedule : List Tid :=
  [.main, .main, .main, .main,
   .g1, .g1, .g1, .g1, .g1, .g1,
   .g2, .g2, .g2, .g2, .g2, .g2,
   .main]

/-- The interleaving in which each goroutine takes its first lock before
either asks for its second. -/
def crossedSchedule : List Tid :=
  [.main, .main, .main, .main, .g1, .g2, .g1, .g2]

end TwoMutexDeadlock

/-! ## Goroutines calling one Frontier -/

namespace Conc

/-- Where a goroutine stands inside a call on the Frontier, one value per
statement of `Enqueue` and `Close` that reads or writes the Frontier. -/
inductive Pc where
  | idle
  | enqLock (url : GoString)
  | enqClosed (url : GoString)
  | enqSeen (url : GoString)
  | enqInsert (url : GoString)
  | enqSend (url : GoString)
  | enqUnlock (ret : Bool)
  | closeLock
  | closeClosed
  | closeEarlyUnlock
  | closeSet
  | closeUnlock
  | closeChan
  | recv
  deriving DecidableEq, Repr

/-- The statements between `f.mu.Lock()` and the matching `Unlock()`. -/
def Pc.holds : Pc → Bool
  | .enqClosed _ | .enqSeen _ | .enqInsert _ | .enqSend _ | .enqUnlock _ => true
  | .closeClosed | .closeEarlyUnlock | .closeSet | .closeUnlock => true
  | _ => false

/-- A goroutine: where it stands, and the calls it has still to make. -/
structure Thread where
  pc : Pc
  todo : List Op
  deriving DecidableEq, Repr

/-- One statement of a goroutine on the shared Frontier. A goroutine with
nothing left to run, or waiting, is `blocked`. -/
def Thread.step (t : Thread) (f : Frontier) : Outcome (Thread × Frontier) :=
  match t.pc with
  | .idle =>
    match t.todo with
    | [] => .blocked
    | .enqueue url :: rest => .done ({ pc := .enqLock url, todo := rest }, f)
    | .close :: rest => .done ({ pc := .closeLock, todo := rest }, f)
    | .recv :: rest => .done ({ pc := .recv, todo := rest }, f)
  | .enqLock url => do
    let mu ← f.mu.Lock
    return ({ t with pc := .enqClosed url }, { f with mu := mu })
  | .enqClosed url =>
    if f.closed then .done ({ t with pc := .enqUnlock false }, f)
    else .done ({ t with pc := .enqSeen url }, f)
  | .enqSeen url =>
    if url ∈ f.seen then .done ({ t with pc := .enqUnlock false }, f)
    else .done ({ t with pc := .enqInsert url }, f)
  | .enqInsert url =>
    .done ({ t with pc := .enqSend url }, { f with seen := insert url f.seen })
  | .enqSend url => do
    let ch ← f.ch.send url
    return ({ t with pc := .enqUnlock true }, { f with ch := ch })
  | .enqUnlock _ => do
    let mu ← f.mu.Unlock
    return ({ t with pc := .idle }, { f with mu := mu })
  | .closeLock => do
    let mu ← f.mu.Lock
    return ({ t with pc := .closeClosed }, { f with mu := mu })
  | .closeClosed =>
    if f.closed then .done ({ t with pc := .closeEarlyUnlock }, f)
    else .done ({ t with pc := .closeSet }, f)
  | .closeEarlyUnlock => do
    let mu ← f.mu.Unlock
    return ({ t with pc := .idle }, { f with mu := mu })
  | .closeSet => .done ({ t with pc := .closeUnlock }, { f with closed := true })
  | .closeUnlock => do
    let mu ← f.mu.Unlock
    return ({ t with pc := .closeChan }, { f with mu := mu })
  | .closeChan => do
    let ch ← f.ch.close
    return ({ t with pc := .idle }, { f with ch := ch })
  | .recv => do
    let (ch, _, _) ← f.ch.recv
    return ({ t with pc := .idle }, { f with ch := ch })

/-- One Frontier and the goroutines using it. -/
structure Sys where
  f : Frontier
  threads : List Thread
  deriving DecidableEq

/-- Goroutine `i` runs one statement. -/
def Sys.step (i : Nat) (s : Sys) : Outcome Sys :=
  match s.threads[i]? with
  | none => .blocked
  | some t => do
    let (t1, f1) ← t.step s.f
    return { f := f1, threads := s.threads.set i t1 }

/-- An interleaving: the goroutines step in the order listed. -/
def Sys.run : List Nat → Sys → Outcome Sys
  | [], s => .done s
  | i :: rest, s => do
    let s1 ← s.step i
    Sys.run rest s1

/-- A fresh Frontier and one goroutine per list of calls. -/
def Sys.init (buffer : Int) (progs : List (List Op)) : Sys :=
  { f := New buffer, threads := progs.map (fun ops => { pc := .idle, todo := ops }) }

/-- Counts 1 for a goroutine standing between a `Lock()` and its `Unlock()`. -/
def Thread.holding (t : Thread) : Nat := if t.pc.holds then 1 else 0

/-- The number of goroutines standing between a `Lock()` and its `Unlock()`. -/
def Sys.holders (s : Sys) : Nat := (s.threads.map Thread.holding).sum

/-- Counts 1 for a goroutine that has found the Frontier open under the lock
and has not yet released it or closed it. -/
def Thread.needsOpen (t : Thread) : Nat :=
  match t.pc with
  | .enqSeen _ | .enqInsert _ | .enqSend _ | .closeSet => 1
  | _ => 0

/-- Counts 1 for a goroutine that has set `closed` and has yet to close the
channel. -/
def Thread.closing (t : Thread) : Nat :=
  match t.pc with
  | .closeUnlock | .closeChan => 1
  | _ => 0

/-- What holds of every state of goroutines calling one Frontier: the mutex is
locked exactly while one goroutine stands between `Lock()` and `Unlock()`;
once `closed` is set nobody relies on the Frontier being open; and `closed` is
set exactly when the channel is closed or one goroutine is about to close it. -/
structure Sys.Safe (s : Sys) : Prop where
  mutex : (s.threads.map Thread.holding).sum = if s.f.mu then 1 else 0
  stillOpen : s.f.closed = true → (s.threads.map Thread.needsOpen).sum = 0
  chan : (s.threads.map Thread.closing).sum + (if s.f.ch.closed then 1 else 0) =
    if s.f.closed then 1 else 0

/-- Two goroutines enqueue into a Frontier of capacity 1 and a third closes
it; nobody receives. -/
def fullQueue : Sys :=
  Sys.init 1 [[.enqueue (lit "a")], [.enqueue (lit "b")], [.close]]

/-- The first goroutine completes its `Enqueue`, the second runs its own up
to the send, the third enters `Close`. -/
def fullQueueSchedule : List Nat :=
  [0, 0, 0, 0, 0, 0, 0, 1, 1, 1, 1, 1, 2]

/-- The state `fullQueueSchedule` leads to. -/
def fullQueueBlocked : Sys :=
  { f := { mu := true, seen := insert (lit "b") (insert (lit "a") ∅),
           ch := { buf := [lit "a"], cap := 1, closed := false }, closed := false },
    threads := [⟨.idle, []⟩, ⟨.enqSend (lit "b"), []⟩, ⟨.closeLock, []⟩] }

end Conc

/-! ## fetch/fetch.go, pipeline/pipeline.go -/

/-- The struct `fetch.Result`. -/
structure Result where
  URL : GoString
  StatusCode : Int
  Body : List UInt8
  ContentType : GoString
  deriving DecidableEq, Repr

/-- A deterministic `fetch.Fetcher`: what `Fetch(ctx, url)` returns depends
only on `url`. -/
abbrev Fetcher := GoString → Result × GoError

/-- The struct `Pipeline`, its `Store` being a `MemStore`; `Workers` is a Go
`int` of 64 bits. -/
structure Pipeline where
  Workers : Int
  Fetcher : Fetcher
  Store : MemStore

namespace Run

/-- Where a worker goroutine of `Run` stands. -/
inductive WPc where
  | range
  | fetch (u : GoString)
  | parse (u : GoString) (res : Result)
  | save (u : GoString) (res : Result) (links : List GoString)
  | wgDone
  | exited
  deriving DecidableEq, Repr

/-- Where the body of `Run` stands after seeding: in the loop that starts the
workers (with its counter `i`), at `f.Close()`, at `wg.Wait()`, or returned. -/
inductive MPc where
  | spawn (i : Int)
  | close
  | wait
  | returned
  deriving DecidableEq, Repr

/-- The threads of one call of `Run`. -/
inductive Tid where
  | main
  | worker (i : Nat)
  deriving DecidableEq, Repr

/-- The variables of one call of `Run` and its threads. -/
structure State where
  Workers : Int
  f : Frontier
  store : MemStore
  wg : Int
  main : MPc
  workers : List WPc

/-- The sequential head of `Run`: the default for `Workers`, the Frontier,
the seeding loop and `wg.Add(p.Workers)`. -/
def start (p : Pipeline) (seeds : List GoString) : Outcome State := do
  let workers := if p.Workers ≤ 0 then 2 else p.Workers
  let f := New seeds.length
  let f ← seedLoop f seeds
  let wg : Int := 0
  let wg ← WaitGroup.Add wg workers
  return { Workers := workers, f := f, store := p.Store, wg := wg,
           main := .spawn 0, workers := [] }

/-- One statement of the body of `Run`. `f.Close()` is one step: the workers
only receive from the channel, and nobody else uses the mutex or the `closed`
flag of the Frontier once seeding is over. -/
def stepMain (s : State) : Outcome State :=
  match s.main with
  | .spawn i =>
    if i < s.Workers then
      .done { s with workers := s.workers ++ [.range], main := .spawn (i + 1) }
    else .done { s with main := .close }
  | .close => do
    let f ← s.f.Close
    return { s with f := f, main := .wait }
  | .wait => if s.wg = 0 then .done { s with main := .returned } else .blocked
  | .returned => .blocked

/-- The page a worker saves for `u` and the fetched `res`. -/
def mkPage (u : GoString) (res : Result) (links : List GoString) : Page :=
  { URL := u, Bytes := res.Body.length, Links := links.length }

/-- One statement of worker `i`. `Save` is one step, being run under the
mutex of the store. -/
def stepWorker (fetcher : Fetcher) (i : Nat) (s : State) : Outcome State :=
  match s.workers[i]? with
  | none => .blocked
  | some .range => do
    let (f, u, ok) ← s.f.recv
    if ok then return { s with f := f, workers := s.workers.set i (.fetch u) }
    else return { s with f := f, workers := s.workers.set i .wgDone }
  | some (.fetch u) =>
    let (res, err) := fetcher u
    if err ≠ none then .done { s with workers := s.workers.set i .range }
    else .done { s with workers := s.workers.set i (.parse u res) }
  | some (.parse u res) =>
    let links := ExtractLinks res.Body
    .done { s with workers := s.workers.set i (.save u res links) }
  | some (.save u res links) => do
    let (store, _) ← s.store.Save (mkPage u res links)
    return { s with store := store, workers := s.workers.set i .range }
  | some .wgDone => do
    let wg ← WaitGroup.Done s.wg
    return { s with wg := wg, workers := s.workers.set i .exited }
  | some .exited => .blocked

/-- One step of the chosen thread. -/
def step (fetcher : Fetcher) (t : Tid) (s : State) : Outcome State :=
  match t with
  | .main => stepMain s
  | .worker i => stepWorker fetcher i s

/-- An interleaving: the threads step in the order listed. -/
def run (fetcher : Fetcher) : List Tid → State → Outcome State
  | [], s => .done s
  | t :: ts, s => do
    let s1 ← step fetcher t s
    run fetcher ts s1

/-- The page saved for a seed whose `Fetch` succeeds; `none` for one whose
`Fetch` fails. -/
def pageOf (fetcher : Fetcher) (u : GoString) : Option Page :=
  if (fetcher u).2 = none then
    some (mkPage u (fetcher u).1 (ExtractLinks (fetcher u).1.Body))
  else none

/-- The pages a worker is still to save for the URL it holds. -/
def inflight (fetcher : Fetcher) : WPc → Multiset Page
  | .fetch u => ((pageOf fetcher u).toList : Multiset Page)
  | .parse u res => {mkPage u res (ExtractLinks res.Body)}
  | .save u res links => {mkPage u res links}
  | _ => 0

/-- Steps a worker can still take without receiving. -/
def rank : WPc → Nat
  | .range => 2
  | .fetch _ => 5
  | .parse _ _ => 4
  | .save _ _ _ => 3
  | .wgDone => 1
  | .exited => 0

/-- Steps the body of `Run` can still take, those of the workers it has yet to
start included. -/
def mainRank (workers : Int) : MPc → Nat
  | .spawn i => 3 * (workers - i).toNat + 3
  | .close => 2
  | .wait => 1
  | .returned => 0

/-- A bound on the steps left in a state. -/
def measure (s : State) : Nat :=
  4 * s.f.ch.buf.length + (s.workers.map rank).sum + mainRank s.Workers s.main

/-- The `fakeFetcher` of pipeline_test.go, taken without its delay: every
fetch succeeds with the same body, which holds one link. -/
def fakeFetcher : Fetcher := fun u =>
  (⟨u, 200, lit "<html><a href=\"https://example.com\">x</a></html>", lit "text/html"⟩,
    none)

/-- A Fetcher that fails for `https://b.com` and otherwise is `fakeFetcher`. -/
def failingFetcher : Fetcher := fun u =>
  if u = lit "https://b.com" then (⟨[], 0, [], []⟩, some (lit "502 Bad Gateway"))
  else fakeFetcher u

/-- An interleaving of two workers over two queued URLs. -/
def scenarioASchedule : List Tid :=
  [.main, .main, .main, .main,
   .worker 0, .worker 1, .worker 0, .worker 1, .worker 0, .worker 1, .worker 0, .worker 1,
   .worker 0, .worker 1, .worker 0, .worker 1, .main]

/-- An interleaving of two workers over three queued URLs, the channel being
closed while both workers hold a URL. -/
def scenarioBSchedule : List Tid :=
  [.main, .main, .main, .worker 0, .worker 1, .main,
   .worker 0, .worker 1, .worker 1, .worker 0, .worker 1, .worker 0, .worker 1, .worker 1,
   .worker 0, .worker 1, .worker 0, .worker 1, .main]

/-- Counts 1 for a worker that has not yet run its `wg.Done()`. -/
def live : WPc → Nat
  | .exited => 0
  | _ => 1

/-- Counts 1 for a worker that has left its `range` loop. -/
def finishing : WPc → Nat
  | .wgDone => 1
  | .exited => 1
  | _ => 0

/-- What holds of every state of `Run` on the distinct seeds `D`: both mutexes
are free between steps; the channel is closed exactly once the body is past
`f.Close()`; the workers started so far match the loop counter; `wg` counts the
workers not yet started or not yet done; a worker leaves its loop only with the
queue empty; every page to save is queued, held by one worker, or stored; and
the worker count, hence the counter `wg`, fits an `int32`. -/
structure Inv (fetcher : Fetcher) (D : List GoString) (s : State) : Prop where
  workers_pos : 0 < s.Workers
  store_unlocked : s.store.mu = false
  f_unlocked : s.f.mu = false
  flags : s.f.ch.closed = s.f.closed
  closed_iff : s.f.closed = true ↔ (s.main = .wait ∨ s.main = .returned)
  spawning : ∀ i, s.main = .spawn i → (s.workers.length : Int) = i ∧ i ≤ s.Workers
  spawned : (∀ i, s.main ≠ .spawn i) → (s.workers.length : Int) = s.Workers
  wg_live : s.wg + (s.workers.length : Int) = s.Workers + ((s.workers.map live).sum : Nat)
  returned_wg : s.main = .returned → s.wg = 0
  drained : 0 < (s.workers.map finishing).sum → s.f.ch.buf = []
  pages : ((s.f.ch.buf.filterMap (pageOf fetcher) : List Page) : Multiset Page)
      + (s.workers.map (inflight fetcher)).sum + (s.store.pages : Multiset Page)
    = ((D.filterMap (pageOf fetcher) : List Page) : Multiset Page)
  workers_max : s.Workers ≤ maxInt32
  len_le : (s.workers.length : Int) ≤ s.Workers
  wg_le : s.wg ≤ s.Workers

end Run

/-! ## Lemmas on outcomes -/

@[simp] theorem Outcome.bind_done {α β : Type} (a : α) (k : α → Outcome β) :
    (Outcome.done a >>= k) = k a := rfl

@[simp] theorem Outcome.bind_blocked {α β : Type} (k : α → Outcome β) :
    (Outcome.blocked >>= k) = Outcome.blocked := rfl

@[simp] theorem Outcome.bind_panic {α β : Type} (k : α → Outcome β) :
    (Outcome.panic >>= k) = Outcome.panic := rfl

@[simp] theorem Outcome.pure_eq {α : Type} (a : α) :
    (pure a : Outcome α) = Outcome.done a := rfl

theorem Outcome.bind_eq_done {α β : Type} {x : Outcome α} {k : α → Outcome β} {b : β} :
    (x >>= k) = Outcome.done b ↔ ∃ a, x = Outcome.done a ∧ k a = Outcome.done b := by
  cases x <;> simp

/-! ## Lemmas on the Frontier -/

theorem Frontier.AtRest.callable {f : Frontier} (h : f.AtRest) : f.Callable :=
  ⟨h.1, fun hc => h.2 ▸ hc⟩

theorem Frontier.Enqueue_callable (f : Frontier) (url : GoString) (h : f.Callable) :
    f.Enqueue url =
      if f.closed then .done (f, false)
      else if url ∈ f.seen then .done (f, false)
      else if f.ch.buf.length < f.ch.cap then
        .done ({ f with seen := insert url f.seen,
                        ch := { f.ch with buf := f.ch.buf ++ [url] } }, true)
      else .blocked := by
  obtain ⟨hmu, hch⟩ := h
  rcases f with ⟨mu, seen, ⟨buf, cap, cc⟩, closed⟩
  simp only at hmu hch
  subst hmu
  by_cases hc : closed = true
  · simp [Frontier.Enqueue, Mutex.Lock, Mutex.Unlock, hc]
  · have hcc : cc = false := by
      cases cc with
      | false => rfl
      | true => exact absurd (hch rfl) hc
    subst hcc
    by_cases hs : url ∈ seen
    · simp [Frontier.Enqueue, Mutex.Lock, Mutex.Unlock, hc, hs]
    · by_cases hl : buf.length < cap
      · simp [Frontier.Enqueue, Mutex.Lock, Mutex.Unlock, Chan.send, hc, hs, hl]
      · simp [Frontier.Enqueue, Mutex.Lock, Mutex.Unlock, Chan.send, hc, hs, hl]

theorem Frontier.Enqueue_atRest (f : Frontier) (url : GoString) (h : f.AtRest) :
    f.Enqueue url =
      if f.closed then .done (f, false)
      else if url ∈ f.seen then .done (f, false)
      else if f.ch.buf.length < f.ch.cap then
        .done ({ f with seen := insert url f.seen,
                        ch := { f.ch with buf := f.ch.buf ++ [url] } }, true)
      else .blocked :=
  Frontier.Enqueue_callable f url h.callable

theorem Frontier.Close_atRest (f : Frontier) (h : f.AtRest) :
    f.Close = .done { f with closed := true, ch := { f.ch with closed := true } } := by
  obtain ⟨hmu, hch⟩ := h
  rcases f with ⟨mu, seen, ⟨buf, cap, cc⟩, closed⟩
  simp only at hmu hch
  subst hmu hch
  cases cc <;> simp [Frontier.Close, Mutex.Lock, Mutex.Unlock, Chan.close]

theorem Frontier.AtRest_apply {f f1 : Frontier} (op : Op) (h : f.AtRest)
    (hstep : f.apply op = .done f1) : f1.AtRest := by
  cases op with
  | enqueue url =>
    simp only [Frontier.apply, Frontier.Enqueue_atRest f url h] at hstep
    obtain ⟨hmu, hch⟩ := h
    split_ifs at hstep <;> simp at hstep <;> subst hstep <;> exact ⟨hmu, hch⟩
  | close =>
    simp only [Frontier.apply, Frontier.Close_atRest f h] at hstep
    simp at hstep
    subst hstep
    exact ⟨h.1, rfl⟩
  | recv =>
    obtain ⟨hmu, hch⟩ := h
    rcases f with ⟨mu, seen, ⟨buf, cap, cc⟩, closed⟩
    cases buf with
    | nil =>
      cases cc <;> simp [Frontier.apply, Frontier.recv, Frontier.Channel, Chan.recv] at hstep
      subst hstep
      exact ⟨hmu, hch⟩
    | cons v rest =>
      simp [Frontier.apply, Frontier.recv, Frontier.Channel, Chan.recv] at hstep
      subst hstep
      exact ⟨hmu, hch⟩

theorem Reachable.atRest {f : Frontier} (h : Reachable f) : f.AtRest := by
  induction h with
  | new buffer => exact ⟨rfl, rfl⟩
  | step op _ hstep ih => exact Frontier.AtRest_apply op ih hstep

theorem Frontier.applyAll_closed (f : Frontier) (h : f.AtRest) (hc : f.closed = true)
    (ops : List Op) : ∃ f2, f.applyAll ops = .done f2 ∧ f2.closed = true := by
  induction ops generalizing f with
  | nil => exact ⟨f, rfl, hc⟩
  | cons op ops ih =>
    have hstep : ∃ f1, f.apply op = .done f1 ∧ f1.closed = true := by
      cases op with
      | enqueue url =>
        refine ⟨f, ?_, hc⟩
        simp [Frontier.apply, Frontier.Enqueue_atRest f url h, hc]
      | close =>
        exact ⟨{ f with closed := true, ch := { f.ch with closed := true } },
          by simp only [Frontier.apply, Frontier.Close_atRest f h], rfl⟩
      | recv =>
        obtain ⟨hmu, hch⟩ := h
        rcases f with ⟨mu, seen, ⟨buf, cap, cc⟩, closed⟩
        simp only at hc hch
        subst hc hch
        cases buf with
        | nil =>
          exact ⟨⟨mu, seen, ⟨[], cap, true⟩, true⟩,
            by simp [Frontier.apply, Frontier.recv, Frontier.Channel, Chan.recv], rfl⟩
        | cons v rest =>
          exact ⟨⟨mu, seen, ⟨rest, cap, true⟩, true⟩,
            by simp [Frontier.apply, Frontier.recv, Frontier.Channel, Chan.recv], rfl⟩
    obtain ⟨f1, h1, hc1⟩ := hstep
    obtain ⟨f2, h2, hc2⟩ := ih f1 (Frontier.AtRest_apply op h h1) hc1
    exact ⟨f2, by simp [Frontier.applyAll, h1, h2], hc2⟩

/-! ## Lemmas on `firstOccurrences` -/

theorem mem_firstOccurrences (l : List GoString) (v : GoString) :
    v ∈ firstOccurrences l ↔ v ∈ l := by
  induction l with
  | nil => simp [firstOccurrences]
  | cons u us ih =>
    simp only [firstOccurrences, List.mem_cons, List.mem_filter, ih]
    by_cases h : v = u <;> simp [h]

theorem nodup_firstOccurrences (l : List GoString) : (firstOccurrences l).Nodup := by
  induction l with
  | nil => simp [firstOccurrences]
  | cons u us ih =>
    simp only [firstOccurrences, List.nodup_cons, List.mem_filter]
    exact ⟨by simp, ih.filter _⟩

theorem sublist_firstOccurrences (l : List GoString) : (firstOccurrences l).Sublist l := by
  induction l with
  | nil => simp [firstOccurrences]
  | cons u us ih =>
    simp only [firstOccurrences]
    exact ((List.filter_sublist _).trans ih).cons₂ u

theorem length_firstOccurrences (l : List GoString) :
    (firstOccurrences l).length = l.toFinset.card := by
  have h : (firstOccurrences l).toFinset = l.toFinset := by
    ext v; simp [mem_firstOccurrences]
  rw [← h, List.toFinset_card_of_nodup (nodup_firstOccurrences l)]

theorem firstOccurrences_of_nodup (l : List GoString) (h : l.Nodup) :
    firstOccurrences l = l := by
  induction l with
  | nil => rfl
  | cons u us ih =>
    obtain ⟨hu, hus⟩ := List.nodup_cons.mp h
    simp only [firstOccurrences, ih hus, List.cons.injEq, true_and]
    apply List.filter_eq_self.mpr
    intro v hv
    have : v ≠ u := fun e => hu (e ▸ hv)
    simpa using this

/-! ## Lemmas on enqueueing and receiving in sequence -/

theorem Frontier.enqueueAll_spec (urls : List GoString) (f : Frontier) (hrest : f.AtRest)
    (hopen : f.closed = false)
    (hcap : f.ch.buf.length + ((firstOccurrences urls).filter (fun v => v ∉ f.seen)).length
      ≤ f.ch.cap) :
    ∃ oks, f.enqueueAll urls = .done
        ({ f with seen := f.seen ∪ urls.toFinset,
                  ch := { f.ch with
                    buf := f.ch.buf ++ (firstOccurrences urls).filter (fun v => v ∉ f.seen) } },
          oks) ∧
      (urls.Nodup → (∀ u ∈ urls, u ∉ f.seen) → oks = urls.map (fun _ => true)) := by
  induction urls generalizing f with
  | nil => exact ⟨[], by simp [Frontier.enqueueAll, firstOccurrences], by simp⟩
  | cons u us ih =>
    by_cases hs : u ∈ f.seen
    · have hfilter : (firstOccurrences (u :: us)).filter (fun v => v ∉ f.seen)
          = (firstOccurrences us).filter (fun v => v ∉ f.seen) := by
        simp only [firstOccurrences, List.filter_cons, hs, not_true_eq_false, decide_False,
          Bool.false_eq_true, if_false, List.filter_filter]
        apply List.filter_congr
        intro v _
        by_cases hv : v ∈ f.seen
        · simp [hv]
        · have : v ≠ u := fun e => hv (e ▸ hs)
          simp [hv, this]
      rw [hfilter] at hcap ⊢
      obtain ⟨oks, h1, _⟩ := ih f hrest hopen hcap
      refine ⟨false :: oks, ?_, ?_⟩
      · have hseen : f.seen ∪ (u :: us).toFinset = f.seen ∪ us.toFinset := by
          ext v; simp only [List.toFinset_cons, Finset.mem_union, Finset.mem_insert,
            List.mem_toFinset]
          constructor
          · rintro (h | h | h)
            · exact Or.inl h
            · exact Or.inl (h ▸ hs)
            · exact Or.inr h
          · rintro (h | h)
            · exact Or.inl h
            · exact Or.inr (Or.inr h)
        simp [Frontier.enqueueAll, Frontier.Enqueue_atRest f u hrest, hopen, hs, h1, hseen]
      · intro _ hall
        exact absurd hs (hall u (List.mem_cons_self _ _))
    · have hfilter : (firstOccurrences (u :: us)).filter (fun v => v ∉ f.seen)
          = u :: (firstOccurrences us).filter (fun v => v ∉ insert u f.seen) := by
        simp only [firstOccurrences, List.filter_cons, hs, not_false_eq_true, decide_True,
          if_true, List.filter_filter, List.cons.injEq, true_and]
        apply List.filter_congr
        intro v _
        by_cases hv : v = u <;> simp [hv, hs]
      rw [hfilter] at hcap ⊢
      simp only [List.length_cons] at hcap
      have hlt : f.ch.buf.length < f.ch.cap := by omega
      let f1 : Frontier := { f with seen := insert u f.seen,
                                     ch := { f.ch with buf := f.ch.buf ++ [u] } }
      have hrest1 : f1.AtRest := ⟨hrest.1, hrest.2⟩
      have hcap1 : f1.ch.buf.length +
          ((firstOccurrences us).filter (fun v => v ∉ f1.seen)).length ≤ f1.ch.cap := by
        simp only [f1, List.length_append, List.length_singleton]
        omega
      obtain ⟨oks, h1, h2⟩ := ih f1 hrest1 hopen hcap1
      refine ⟨true :: oks, ?_, ?_⟩
      · have hseen : f.seen ∪ (u :: us).toFinset = insert u f.seen ∪ us.toFinset := by
          ext v; simp only [List.toFinset_cons, Finset.mem_union, Finset.mem_insert,
            List.mem_toFinset]
          tauto
        have hE : f.Enqueue u = .done (f1, true) := by
          rw [Frontier.Enqueue_atRest f u hrest]
          simp [hopen, hs, hlt, f1]
        simp only [Frontier.enqueueAll, hE, Outcome.bind_done, h1, Outcome.pure_eq]
        simp [f1, hseen]
      · intro hnd hall
        obtain ⟨hu, hus⟩ := List.nodup_cons.mp hnd
        have : oks = us.map (fun _ => true) := by
          apply h2 hus
          intro v hv
          simp only [f1, Finset.mem_insert, not_or]
          exact ⟨fun e => hu (e ▸ hv), hall v (List.mem_cons_of_mem _ hv)⟩
        simp [this]

theorem seedLoop_eq_enqueueAll (urls : List GoString) (f : Frontier) :
    seedLoop f urls = (f.enqueueAll urls >>= fun r => Outcome.done r.1) := by
  induction urls generalizing f with
  | nil => rfl
  | cons u us ih =>
    simp only [seedLoop, Frontier.enqueueAll]
    cases hE : f.Enqueue u with
    | done r =>
      obtain ⟨f1, ok⟩ := r
      simp only [Outcome.bind_done, ih f1]
      cases f1.enqueueAll us <;> simp
    | blocked => simp
    | panic => simp

theorem Frontier.recvN_prefix (xs rest : List GoString) (f : Frontier)
    (hbuf : f.ch.buf = xs ++ rest) :
    f.recvN xs.length =
      .done ({ f with ch := { f.ch with buf := rest } }, xs.map (fun v => (v, true))) := by
  induction xs generalizing f with
  | nil =>
    simp only [List.nil_append] at hbuf
    simp [Frontier.recvN, ← hbuf]
  | cons x xs ih =>
    have h1 : f.recv = .done ({ f with ch := { f.ch with buf := xs ++ rest } }, x, true) := by
      simp [Frontier.recv, Frontier.Channel, Chan.recv, hbuf]
    simp [Frontier.recvN, h1, ih { f with ch := { f.ch with buf := xs ++ rest } } rfl]

theorem Frontier.recvN_drained (f : Frontier) (hbuf : f.ch.buf = []) (hc : f.ch.closed = true)
    (k : Nat) : f.recvN k = .done (f, List.replicate k ([], false)) := by
  have h1 : f.recv = .done (f, [], false) := by
    simp [Frontier.recv, Frontier.Channel, Chan.recv, hbuf, hc]
  induction k with
  | zero => rfl
  | succ k ih => simp [Frontier.recvN, h1, ih, List.replicate_succ]

theorem New_atRest (buffer : Int) : (New buffer).AtRest := ⟨rfl, rfl⟩

theorem New_cap (buffer : Int) : (New buffer).ch.cap = max 1 buffer.toNat := by
  simp only [New, Chan.make]
  split_ifs with h <;> omega

/-- Enqueueing into a fresh Frontier that has room for the distinct URLs. -/
theorem New_enqueueAll (urls : List GoString) (buffer : Int)
    (hcap : urls.toFinset.card ≤ (New buffer).ch.cap) :
    ∃ oks, (New buffer).enqueueAll urls = .done
        ({ New buffer with seen := urls.toFinset,
                           ch := { (New buffer).ch with buf := firstOccurrences urls } }, oks) ∧
      (urls.Nodup → oks = urls.map (fun _ => true)) := by
  have hfilter : (firstOccurrences urls).filter (fun v => v ∉ (New buffer).seen)
      = firstOccurrences urls := by
    simp [New]
  have h := Frontier.enqueueAll_spec urls (New buffer) (New_atRest buffer) rfl (by
    rw [hfilter, length_firstOccurrences]
    have : (New buffer).ch.buf = [] := rfl
    rw [this]
    simp only [List.length_nil]
    omega)
  obtain ⟨oks, h1, h2⟩ := h
  rw [hfilter] at h1
  refine ⟨oks, ?_, fun hnd => h2 hnd (by simp [New])⟩
  rw [h1]
  simp [New, Chan.make]

/-! ## Claims on the Frontier -/

theorem Enqueue_contract_aux (f : Frontier) (url : GoString) (hrest : f.AtRest)
    (hfree : f.ch.buf.length < f.ch.cap) :
    ∃ f1 ok, f.Enqueue url = .done (f1, ok) ∧
      (ok = true ↔ (f.closed = false ∧ url ∉ f.seen)) := by
  rw [Frontier.Enqueue_atRest f url hrest]
  by_cases hc : f.closed = true
  · exact ⟨f, false, by simp [hc], by simp [hc]⟩
  · by_cases hs : url ∈ f.seen
    · exact ⟨f, false, by simp [hc, hs], by simp [hs]⟩
    · exact ⟨{ f with seen := insert url f.seen,
                      ch := { f.ch with buf := f.ch.buf ++ [url] } }, true,
        by simp [hc, hs, hfree], by simp [hc, hs]⟩

/-- C2: on a Frontier whose mutex is free and whose queue has free space,
`Enqueue(url)` returns, and returns `true` exactly when the Frontier is open
and `url` is not in the seen set; on `false` the state is left as it was, on
`true` the state differs only in that `url` joined the seen set and the back of
the queue. -/
theorem Enqueue_contract (f : Frontier) (url : GoString) (hcall : f.Callable)
    (hfree : f.ch.buf.length < f.ch.cap) :
    ∃ f1 ok, f.Enqueue url = .done (f1, ok) ∧
      (ok = true ↔ (f.closed = false ∧ url ∉ f.seen)) ∧
      (ok = false → f1 = f) ∧
      (ok = true → f1 = { f with seen := insert url f.seen,
                                 ch := { f.ch with buf := f.ch.buf ++ [url] } }) := by
  rw [Frontier.Enqueue_callable f url hcall]
  by_cases hc : f.closed = true
  · exact ⟨f, false, by simp [hc], by simp [hc], fun _ => rfl, by simp⟩
  · by_cases hs : url ∈ f.seen
    · exact ⟨f, false, by simp [hc, hs], by simp [hs], fun _ => rfl, by simp⟩
    · exact ⟨_, true, by simp [hc, hs, hfree], by simp [hc, hs], by simp, fun _ => rfl⟩

theorem Enqueue_contract_witness :
    (New 4).Callable ∧ (New 4).ch.buf.length < (New 4).ch.cap ∧
    ∃ f1 ok, (New 4).Enqueue (lit "https://a.com") = .done (f1, ok) ∧
      (ok = true ↔ ((New 4).closed = false ∧ lit "https://a.com" ∉ (New 4).seen)) ∧
      (ok = false → f1 = New 4) ∧
      (ok = true → f1 = { New 4 with seen := insert (lit "https://a.com") (New 4).seen,
                                     ch := { (New 4).ch with
                                       buf := (New 4).ch.buf ++ [lit "https://a.com"] } }) :=
  ⟨by decide, by decide,
    Enqueue_contract (New 4) (lit "https://a.com") (by decide) (by decide)⟩

/-- C4: on a Frontier between calls `Close` returns, a second `Close` returns
too and leaves the state of the first (the channel is not closed again, which
would panic), and from a closed Frontier every sequence of `Enqueue`, `Close`
and receive calls runs to the end and leaves it closed. -/
theorem Close_idempotent_one_way (f : Frontier) (hrest : f.AtRest) :
    (∃ f1, f.Close = .done f1 ∧ f1.Close = .done f1 ∧
      f1.closed = true ∧ f1.ch.closed = true ∧
      ∀ ops : List Op, ∃ f2, f1.applyAll ops = .done f2 ∧ f2.closed = true) ∧
    (f.closed = true →
      ∀ ops : List Op, ∃ f2, f.applyAll ops = .done f2 ∧ f2.closed = true) := by
  have h1 : Frontier.AtRest { f with closed := true, ch := { f.ch with closed := true } } :=
    ⟨hrest.1, rfl⟩
  refine ⟨⟨_, Frontier.Close_atRest f hrest, ?_, rfl, rfl, ?_⟩, ?_⟩
  · rw [Frontier.Close_atRest _ h1]
  · exact Frontier.applyAll_closed _ h1 rfl
  · intro hc
    exact Frontier.applyAll_closed f hrest hc

theorem Close_idempotent_one_way_witness :
    (New 1).AtRest ∧
    ((∃ f1, (New 1).Close = .done f1 ∧ f1.Close = .done f1 ∧
      f1.closed = true ∧ f1.ch.closed = true ∧
      ∀ ops : List Op, ∃ f2, f1.applyAll ops = .done f2 ∧ f2.closed = true) ∧
    ((New 1).closed = true →
      ∀ ops : List Op, ∃ f2, (New 1).applyAll ops = .done f2 ∧ f2.closed = true)) :=
  ⟨by decide, Close_idempotent_one_way (New 1) (by decide)⟩

/-- C1: URLs enqueued in order into a fresh Frontier whose capacity is at least
the number of distinct ones are all handled without waiting, and receiving
from `Channel()` then delivers exactly the input with later duplicates removed,
first occurrences in order: as many values as there are distinct URLs, none
twice, after which the queue is empty and a further receive waits. -/
theorem Frontier_delivers_first_occurrences (urls : List GoString) (buffer : Int)
    (hcap : urls.toFinset.card ≤ (New buffer).ch.cap) :
    ∃ f oks f1, (New buffer).enqueueAll urls = .done (f, oks) ∧
      f.recvN urls.toFinset.card =
        .done (f1, (firstOccurrences urls).map (fun v => (v, true))) ∧
      f1.ch.buf = [] ∧ f1.recv = .blocked ∧
      (firstOccurrences urls).length = urls.toFinset.card ∧
      (firstOccurrences urls).Nodup ∧
      (firstOccurrences urls).Sublist urls ∧
      ∀ v, v ∈ firstOccurrences urls ↔ v ∈ urls := by
  obtain ⟨oks, h1, _⟩ := New_enqueueAll urls buffer hcap
  refine ⟨_, oks, { New buffer with seen := urls.toFinset,
                                    ch := { (New buffer).ch with buf := [] } },
    h1, ?_, rfl, rfl, length_firstOccurrences urls, nodup_firstOccurrences urls,
    sublist_firstOccurrences urls, mem_firstOccurrences urls⟩
  rw [← length_firstOccurrences]
  exact Frontier.recvN_prefix (firstOccurrences urls) [] _ (by simp)

theorem Frontier_delivers_first_occurrences_witness :
    ∃ f oks f1,
      (New 4).enqueueAll [lit "https://a.com", lit "https://a.com", lit "https://b.com"]
        = .done (f, oks) ∧
      f.recvN [lit "https://a.com", lit "https://a.com", lit "https://b.com"].toFinset.card =
        .done (f1, (firstOccurrences
          [lit "https://a.com", lit "https://a.com", lit "https://b.com"]).map
            (fun v => (v, true))) ∧
      f1.ch.buf = [] ∧ f1.recv = .blocked ∧
      (firstOccurrences
          [lit "https://a.com", lit "https://a.com", lit "https://b.com"]).length =
        [lit "https://a.com", lit "https://a.com", lit "https://b.com"].toFinset.card ∧
      (firstOccurrences
          [lit "https://a.com", lit "https://a.com", lit "https://b.com"]).Nodup ∧
      (firstOccurrences
          [lit "https://a.com", lit "https://a.com", lit "https://b.com"]).Sublist
        [lit "https://a.com", lit "https://a.com", lit "https://b.com"] ∧
      ∀ v, v ∈ firstOccurrences
          [lit "https://a.com", lit "https://a.com", lit "https://b.com"] ↔
        v ∈ [lit "https://a.com", lit "https://a.com", lit "https://b.com"] :=
  Frontier_delivers_first_occurrences
    [lit "https://a.com", lit "https://a.com", lit "https://b.com"] 4 (by decide)

/-- C3: after `N` distinct URLs were each admitted (`Enqueue` returned `true`)
into a fresh Frontier of capacity at least `N` and nothing was received,
`Close` returns and discards nothing: the next `N` receives deliver those URLs
in order, and every receive after them returns at once with `ok = false`. -/
theorem Close_keeps_admitted (urls : List GoString) (buffer : Int) (hnd : urls.Nodup)
    (hcap : urls.length ≤ (New buffer).ch.cap) :
    ∃ f1 f2 f3, (New buffer).enqueueAll urls = .done (f1, urls.map (fun _ => true)) ∧
      f1.Close = .done f2 ∧
      f2.recvN urls.length = .done (f3, urls.map (fun v => (v, true))) ∧
      ∀ k, f3.recvN k = .done (f3, List.replicate k ([], false)) := by
  have hcard : urls.toFinset.card = urls.length := List.toFinset_card_of_nodup hnd
  obtain ⟨oks, h1, h2⟩ := New_enqueueAll urls buffer (by rw [hcard]; exact hcap)
  rw [h2 hnd, firstOccurrences_of_nodup urls hnd] at h1
  refine ⟨_, _, { New buffer with seen := urls.toFinset, closed := true,
                                  ch := { (New buffer).ch with buf := [], closed := true } },
    h1, Frontier.Close_atRest _ ⟨rfl, rfl⟩, ?_, ?_⟩
  · exact Frontier.recvN_prefix urls [] _ (by simp)
  · exact Frontier.recvN_drained _ rfl rfl

theorem Close_keeps_admitted_witness :
    ∃ f1 f2 f3,
      (New 2).enqueueAll [lit "https://a.com", lit "https://b.com"] =
        .done (f1, [lit "https://a.com", lit "https://b.com"].map (fun _ => true)) ∧
      f1.Close = .done f2 ∧
      f2.recvN [lit "https://a.com", lit "https://b.com"].length =
        .done (f3, [lit "https://a.com", lit "https://b.com"].map (fun v => (v, true))) ∧
      ∀ k, f3.recvN k = .done (f3, List.replicate k ([], false)) :=
  Close_keeps_admitted [lit "https://a.com", lit "https://b.com"] 2 (by decide) (by decide)

/-- C10: the Frontier of `Pipeline.Run` has capacity `max(1, len(seeds))`, the
seeding loop runs to its end, and before each of its `Enqueue` calls the queue
holds at most as many URLs as there are distinct seeds before it, fewer than
the capacity, so that call returns without waiting. -/
theorem seeding_never_blocks (seeds : List GoString) :
    (New seeds.length).ch.cap = max 1 seeds.length ∧
    (∃ f, seedLoop (New seeds.length) seeds = .done f) ∧
    ∀ k : Fin seeds.length,
      ∃ fk, seedLoop (New seeds.length) (seeds.take k) = .done fk ∧
        fk.ch.buf.length ≤ (seeds.take k).toFinset.card ∧
        fk.ch.buf.length < fk.ch.cap ∧
        ∃ fk1 ok, fk.Enqueue (seeds.get k) = .done (fk1, ok) := by
  have hcap0 : (New seeds.length).ch.cap = max 1 seeds.length := by
    rw [New_cap]; simp
  have hpre : ∀ l : List GoString, l.length ≤ seeds.length →
      seedLoop (New seeds.length) l = .done
        { New seeds.length with seen := l.toFinset,
                                ch := { (New seeds.length).ch with buf := firstOccurrences l } } := by
    intro l hl
    have hc : l.toFinset.card ≤ (New seeds.length).ch.cap := by
      have := List.toFinset_card_le l
      rw [hcap0]
      omega
    obtain ⟨oks, h1, _⟩ := New_enqueueAll l seeds.length hc
    simp [seedLoop_eq_enqueueAll, h1]
  refine ⟨hcap0, ⟨_, hpre seeds le_rfl⟩, ?_⟩
  intro k
  have hk : (seeds.take k).length ≤ seeds.length := by simp
  have hlen : (firstOccurrences (seeds.take k)).length ≤ (seeds.take k).toFinset.card := by
    rw [length_firstOccurrences]
  have hlt : (firstOccurrences (seeds.take k)).length < max 1 seeds.length := by
    have h1 := List.toFinset_card_le (seeds.take k)
    have h2 : (seeds.take k).length ≤ k := by simp
    have h3 := k.isLt
    omega
  refine ⟨_, hpre _ hk, hlen, ?_, ?_⟩
  · simpa [hcap0] using hlt
  · have hr : Frontier.AtRest
        { New seeds.length with
          seen := (seeds.take k).toFinset,
          ch := { (New seeds.length).ch with buf := firstOccurrences (seeds.take k) } } :=
      ⟨rfl, rfl⟩
    obtain ⟨f1, ok, h, _⟩ := Enqueue_contract_aux _ (seeds.get k) hr (by simpa [hcap0] using hlt)
    exact ⟨f1, ok, h⟩

/-! ## Lemmas and claim on the store -/

theorem MemStore.Save_unlocked (m : MemStore) (p : Page) (h : m.mu = false) :
    m.Save p = .done ({ m with pages := m.pages ++ [p] }, none) := by
  rcases m with ⟨mu, pages⟩
  simp only at h
  subst h
  simp [MemStore.Save, Mutex.Lock, Mutex.Unlock]

theorem MemStore.Count_unlocked (m : MemStore) (h : m.mu = false) :
    m.Count = .done (m, (m.pages.length : Int)) := by
  rcases m with ⟨mu, pages⟩
  simp only at h
  subst h
  simp [MemStore.Count, Mutex.Lock, Mutex.Unlock]

theorem MemStore.saveAll_unlocked (ps : List Page) (m : MemStore) (h : m.mu = false) :
    m.saveAll ps =
      .done ({ m with pages := m.pages ++ ps }, List.replicate ps.length none) := by
  induction ps generalizing m with
  | nil => simp [MemStore.saveAll]
  | cons p ps ih =>
    simp [MemStore.saveAll, MemStore.Save_unlocked m p h,
      ih { m with pages := m.pages ++ [p] } h, List.replicate_succ]

/-- C6: let `N` `Save` calls with arguments `ps` be applied to a store made by
`NewMem`, one whole call at a time, in any order `qs` of the calls. Every call
returns `nil`, the store then holds the saved pages each exactly once, `Count`
returns `N`, and `Count` leaves the store as it was. -/
theorem MemStore_count_after_saves (ps qs : List Page) (horder : qs.Perm ps) :
    ∃ m, NewMem.saveAll qs = .done (m, List.replicate ps.length none) ∧
      m.pages.Perm ps ∧
      m.Count = .done (m, (ps.length : Int)) := by
  refine ⟨{ NewMem with pages := NewMem.pages ++ qs }, ?_, ?_, ?_⟩
  · rw [MemStore.saveAll_unlocked qs NewMem rfl, horder.length_eq]
  · simpa [NewMem] using horder
  · rw [MemStore.Count_unlocked _ rfl]
    simp [NewMem, horder.length_eq]

theorem MemStore_count_after_saves_witness :
    ∃ m, NewMem.saveAll [⟨lit "b", 2, 0⟩, ⟨lit "a", 1, 1⟩] =
        .done (m, List.replicate [(⟨lit "a", 1, 1⟩ : Page), ⟨lit "b", 2, 0⟩].length none) ∧
      m.pages.Perm [⟨lit "a", 1, 1⟩, ⟨lit "b", 2, 0⟩] ∧
      m.Count = .done (m, (([(⟨lit "a", 1, 1⟩ : Page), ⟨lit "b", 2, 0⟩].length : Nat) : Int)) :=
  MemStore_count_after_saves [⟨lit "a", 1, 1⟩, ⟨lit "b", 2, 0⟩]
    [⟨lit "b", 2, 0⟩, ⟨lit "a", 1, 1⟩] (List.Perm.swap _ _ _)

/-! ## Lemmas and claim on the link extractor -/

theorem isHTTP_prefix (s : GoString) (h : isHTTP s = true) :
    lit "http://" <+: s ∨ lit "https://" <+: s := by
  simp only [isHTTP, Bool.and_eq_true, Bool.or_eq_true, decide_eq_true_eq, beq_iff_eq] at h
  rcases h.2 with h7 | ⟨_, h8⟩
  · left
    rw [← h7]
    exact List.take_prefix 7 s
  · right
    rw [← h8]
    exact List.take_prefix 8 s

theorem extractLoop_mem (ms : List (List GoString)) (out : List GoString) (x : GoString)
    (hx : x ∈ extractLoop out ms) : x ∈ out ∨ isHTTP x = true := by
  induction ms generalizing out with
  | nil => exact Or.inl hx
  | cons m rest ih =>
    simp only [extractLoop] at hx
    split_ifs at hx with h1 h2
    · exact ih out hx
    · rcases ih _ hx with h | h
      · rcases List.mem_append.mp h with h | h
        · exact Or.inl h
        · right
          rw [List.mem_singleton.mp h]
          exact h2
      · exact Or.inr h
    · exact ih out hx

/-- C7: every element of `ExtractLinks(html)` begins with `http://` or with
`https://`, so a value that does not is never returned; an input in which
`hrefRe` has no match gives the empty result, and so do the inputs of the
table test without a link and with the relative link `/about`. -/
theorem ExtractLinks_only_absolute (html : GoString) :
    (∀ x ∈ ExtractLinks html, lit "http://" <+: x ∨ lit "https://" <+: x) ∧
    (∀ href : GoString, ¬ (lit "http://" <+: href ∨ lit "https://" <+: href) →
      href ∉ ExtractLinks html) ∧
    (hrefRe_FindAllStringSubmatch html = [] → ExtractLinks html = []) ∧
    hrefRe_FindAllStringSubmatch (lit "<a href=\"/about\"></a>") =
      [[lit "href=\"/about\"", lit "/about"]] ∧
    ExtractLinks (lit "<a href=\"/about\"></a>") = [] ∧
    ExtractLinks (lit "<p>No links</p>") = [] := by
  have hall : ∀ x ∈ ExtractLinks html, lit "http://" <+: x ∨ lit "https://" <+: x := by
    intro x hx
    rcases extractLoop_mem _ [] x hx with h | h
    · simp at h
    · exact isHTTP_prefix x h
  refine ⟨hall, fun href hno hmem => hno (hall href hmem), ?_, by decide, by decide, by decide⟩
  intro h
  simp [ExtractLinks, h, extractLoop]

/-! ## The deadlock fixture -/

/-- C9: `TwoMutexDeadlock` under two interleavings. When the first goroutine
runs to its end before the second locks `b`, both goroutines complete and the
call returns. When each goroutine takes its first lock before either asks for
its second, no thread can ever move again and the call has not returned. -/
theorem TwoMutexDeadlock_interleavings :
    (∃ s, TwoMutexDeadlock.run TwoMutexDeadlock.serialSchedule TwoMutexDeadlock.State.init = some s ∧
      s.g1 = .exited ∧ s.g2 = .exited ∧ s.main = .returned) ∧
    (∃ s, TwoMutexDeadlock.run TwoMutexDeadlock.crossedSchedule TwoMutexDeadlock.State.init = some s ∧
      s.main = .wgWait ∧ s.g1 = .lockSecond ∧ s.g2 = .lockSecond ∧
      ∀ t, TwoMutexDeadlock.step t s = none) := by
  refine ⟨⟨⟨true, false, false, 0, .returned, .exited, .exited⟩, by decide, rfl, rfl, rfl⟩,
    ⟨⟨true, true, true, 2, .wgWait, .lockSecond, .lockSecond⟩, by decide, rfl, rfl, rfl, ?_⟩⟩
  intro t
  cases t <;> rfl

/-! ## Lemmas on lists of threads -/

theorem sum_map_set {α M : Type} [AddCommMonoid M] (g : α → M) (l : List α) (i : Nat)
    (a b : α) (h : l[i]? = some a) :
    ((l.set i b).map g).sum + g a = (l.map g).sum + g b := by
  induction l generalizing i with
  | nil => simp at h
  | cons x xs ih =>
    cases i with
    | zero =>
      simp only [List.getElem?_cons_zero, Option.some.injEq] at h
      subst h
      simp only [List.set_cons_zero, List.map_cons, List.sum_cons]
      abel
    | succ n =>
      simp only [List.getElem?_cons_succ] at h
      simp only [List.set_cons_succ, List.map_cons, List.sum_cons, add_assoc, ih n h]

theorem le_sum_map_of_getElem? {α : Type} (g : α → Nat) (l : List α) (i : Nat) (a : α)
    (h : l[i]? = some a) : g a ≤ (l.map g).sum := by
  induction l generalizing i with
  | nil => simp at h
  | cons x xs ih =>
    cases i with
    | zero =>
      simp only [List.getElem?_cons_zero, Option.some.injEq] at h
      subst h
      simp
    | succ n =>
      simp only [List.getElem?_cons_succ] at h
      have := ih n h
      simp only [List.map_cons, List.sum_cons]
      omega

theorem add_le_sum_map_of_ne {α : Type} (g : α → Nat) (l : List α) (i j : Nat) (a b : α)
    (hij : i ≠ j) (hi : l[i]? = some a) (hj : l[j]? = some b) :
    g a + g b ≤ (l.map g).sum := by
  induction l generalizing i j with
  | nil => simp at hi
  | cons x xs ih =>
    cases i with
    | zero =>
      cases j with
      | zero => exact absurd rfl hij
      | succ m =>
        simp only [List.getElem?_cons_zero, Option.some.injEq] at hi
        simp only [List.getElem?_cons_succ] at hj
        subst hi
        have := le_sum_map_of_getElem? g xs m b hj
        simp only [List.map_cons, List.sum_cons]
        omega
    | succ n =>
      cases j with
      | zero =>
        simp only [List.getElem?_cons_zero, Option.some.injEq] at hj
        simp only [List.getElem?_cons_succ] at hi
        subst hj
        have := le_sum_map_of_getElem? g xs n a hi
        simp only [List.map_cons, List.sum_cons]
        omega
      | succ m =>
        simp only [List.getElem?_cons_succ] at hi hj
        have := ih n m (fun e => hij (by rw [e])) hi hj
        simp only [List.map_cons, List.sum_cons]
        omega

/-! ## The mutex of the Frontier under concurrent calls -/

namespace Conc

/-- A statement changes the mutex exactly as it changes whether its goroutine
stands between `Lock()` and `Unlock()`. -/
theorem Thread.step_holds (t t1 : Thread) (f f1 : Frontier)
    (h : t.step f = .done (t1, f1)) :
    t1.holding + (if f.mu then 1 else 0) = t.holding + (if f1.mu then 1 else 0) := by
  unfold Thread.holding
  rcases t with ⟨pc, todo⟩
  rcases f with ⟨mu, seen, ch, closed⟩
  cases pc with
  | idle =>
    cases todo with
    | nil => simp [Thread.step] at h
    | cons op rest =>
      cases op <;> simp [Thread.step] at h <;> obtain ⟨h1, h2⟩ := h <;> subst h1 h2 <;>
        simp [Pc.holds]
  | enqLock url =>
    cases mu <;> simp [Thread.step, Mutex.Lock] at h
    obtain ⟨h1, h2⟩ := h
    subst h1 h2
    simp [Pc.holds]
  | enqClosed url =>
    cases closed <;> simp [Thread.step] at h <;> obtain ⟨h1, h2⟩ := h <;> subst h1 h2 <;>
      simp [Pc.holds]
  | enqSeen url =>
    by_cases hs : url ∈ seen <;> simp [Thread.step, hs] at h <;> obtain ⟨h1, h2⟩ := h <;>
      subst h1 h2 <;> simp [Pc.holds]
  | enqInsert url =>
    simp [Thread.step] at h
    obtain ⟨h1, h2⟩ := h
    subst h1 h2
    simp [Pc.holds]
  | enqSend url =>
    simp only [Thread.step] at h
    cases hsend : ch.send url with
    | done c =>
      simp [hsend] at h
      obtain ⟨h1, h2⟩ := h
      subst h1 h2
      simp [Pc.holds]
    | blocked => simp [hsend] at h
    | panic => simp [hsend] at h
  | enqUnlock ret =>
    cases mu <;> simp [Thread.step, Mutex.Unlock] at h
    obtain ⟨h1, h2⟩ := h
    subst h1 h2
    simp [Pc.holds]
  | closeLock =>
    cases mu <;> simp [Thread.step, Mutex.Lock] at h
    obtain ⟨h1, h2⟩ := h
    subst h1 h2
    simp [Pc.holds]
  | closeClosed =>
    cases closed <;> simp [Thread.step] at h <;> obtain ⟨h1, h2⟩ := h <;> subst h1 h2 <;>
      simp [Pc.holds]
  | closeEarlyUnlock =>
    cases mu <;> simp [Thread.step, Mutex.Unlock] at h
    obtain ⟨h1, h2⟩ := h
    subst h1 h2
    simp [Pc.holds]
  | closeSet =>
    simp [Thread.step] at h
    obtain ⟨h1, h2⟩ := h
    subst h1 h2
    simp [Pc.holds]
  | closeUnlock =>
    cases mu <;> simp [Thread.step, Mutex.Unlock] at h
    obtain ⟨h1, h2⟩ := h
    subst h1 h2
    simp [Pc.holds]
  | closeChan =>
    simp only [Thread.step] at h
    cases hclose : ch.close with
    | done c =>
      simp [hclose] at h
      obtain ⟨h1, h2⟩ := h
      subst h1 h2
      simp [Pc.holds]
    | blocked => simp [hclose] at h
    | panic => simp [hclose] at h
  | recv =>
    simp only [Thread.step] at h
    cases hrecv : ch.recv with
    | done r =>
      obtain ⟨c, v, ok⟩ := r
      simp [hrecv] at h
      obtain ⟨h1, h2⟩ := h
      subst h1 h2
      simp [Pc.holds]
    | blocked => simp [hrecv] at h
    | panic => simp [hrecv] at h

theorem Sys.step_holders (i : Nat) (s s1 : Sys) (h : s.step i = .done s1)
    (hinv : s.holders = if s.f.mu then 1 else 0) :
    s1.holders = if s1.f.mu then 1 else 0 := by
  unfold Sys.step at h
  cases ht : s.threads[i]? with
  | none => simp [ht] at h
  | some t =>
    simp only [ht] at h
    cases hstep : t.step s.f with
    | done r =>
      obtain ⟨t1, f1⟩ := r
      simp [hstep] at h
      subst h
      have hl := Thread.step_holds t t1 s.f f1 hstep
      have hsum := sum_map_set Thread.holding s.threads i t t1 ht
      simp only [Sys.holders] at hinv ⊢
      omega
    | blocked => simp [hstep] at h
    | panic => simp [hstep] at h

theorem Sys.run_holders (sched : List Nat) (s s1 : Sys) (h : Sys.run sched s = .done s1)
    (hinv : s.holders = if s.f.mu then 1 else 0) :
    s1.holders = if s1.f.mu then 1 else 0 := by
  induction sched generalizing s with
  | nil =>
    simp [Sys.run] at h
    subst h
    exact hinv
  | cons i rest ih =>
    simp only [Sys.run] at h
    obtain ⟨s2, h2, h3⟩ := Outcome.bind_eq_done.mp h
    exact ih s2 h3 (Sys.step_holders i s s2 h2 hinv)

theorem Sys.init_holders (buffer : Int) (progs : List (List Op)) :
    (Sys.init buffer progs).holders = if (Sys.init buffer progs).f.mu then 1 else 0 := by
  simp only [Sys.holders, Sys.init, New, List.map_map]
  induction progs with
  | nil => simp
  | cons p ps ih => simpa [Thread.holding, Pc.holds] using ih

theorem Thread.needsOpen_le_holding (t : Thread) : t.needsOpen ≤ t.holding := by
  rcases t with ⟨pc, todo⟩
  cases pc <;> simp [Thread.needsOpen, Thread.holding, Pc.holds]

theorem sum_map_le_sum_map {α : Type} (g k : α → Nat) (l : List α) (h : ∀ x, g x ≤ k x) :
    (l.map g).sum ≤ (l.map k).sum := by
  induction l with
  | nil => simp
  | cons x xs ih =>
    have := h x
    simp only [List.map_cons, List.sum_cons]
    omega

/-- How one statement changes the `closed` flag, the channel, and what its
goroutine relies on. -/
theorem Thread.step_flags (t t1 : Thread) (f f1 : Frontier)
    (h : t.step f = .done (t1, f1)) :
    (f1.closed = f.closed ∨ (t.needsOpen = 1 ∧ t1.needsOpen = 0 ∧ f1.closed = true)) ∧
    (t1.needsOpen = 1 → t.needsOpen = 1 ∨ f1.closed = false) ∧
    ((t.needsOpen = 1 → f.closed = false) →
      t1.closing + (if f1.ch.closed then 1 else 0) + (if f.closed then 1 else 0) =
        t.closing + (if f.ch.closed then 1 else 0) + (if f1.closed then 1 else 0)) := by
  rcases t with ⟨pc, todo⟩
  rcases f with ⟨mu, seen, ⟨buf, cap, cc⟩, closed⟩
  cases pc with
  | idle =>
    cases todo with
    | nil => simp [Thread.step] at h
    | cons op rest =>
      cases op <;> simp [Thread.step] at h <;> obtain ⟨h1, h2⟩ := h <;> subst h1 h2 <;>
        simp [Thread.needsOpen, Thread.closing]
  | enqLock url =>
    cases mu <;> simp [Thread.step, Mutex.Lock] at h
    obtain ⟨h1, h2⟩ := h
    subst h1 h2
    simp [Thread.needsOpen, Thread.closing]
  | enqClosed url =>
    cases closed <;> simp [Thread.step] at h <;> obtain ⟨h1, h2⟩ := h <;> subst h1 h2 <;>
      simp [Thread.needsOpen, Thread.closing]
  | enqSeen url =>
    by_cases hs : url ∈ seen <;> simp [Thread.step, hs] at h <;> obtain ⟨h1, h2⟩ := h <;>
      subst h1 h2 <;> simp [Thread.needsOpen, Thread.closing]
  | enqInsert url =>
    simp [Thread.step] at h
    obtain ⟨h1, h2⟩ := h
    subst h1 h2
    simp [Thread.needsOpen, Thread.closing]
  | enqSend url =>
    cases cc with
    | true => simp [Thread.step, Chan.send] at h
    | false =>
      by_cases hl : buf.length < cap
      · simp [Thread.step, Chan.send, hl] at h
        obtain ⟨h1, h2⟩ := h
        subst h1 h2
        simp [Thread.needsOpen, Thread.closing]
      · simp [Thread.step, Chan.send, hl] at h
  | enqUnlock ret =>
    cases mu <;> simp [Thread.step, Mutex.Unlock] at h
    obtain ⟨h1, h2⟩ := h
    subst h1 h2
    simp [Thread.needsOpen, Thread.closing]
  | closeLock =>
    cases mu <;> simp [Thread.step, Mutex.Lock] at h
    obtain ⟨h1, h2⟩ := h
    subst h1 h2
    simp [Thread.needsOpen, Thread.closing]
  | closeClosed =>
    cases closed <;> simp [Thread.step] at h <;> obtain ⟨h1, h2⟩ := h <;> subst h1 h2 <;>
      simp [Thread.needsOpen, Thread.closing]
  | closeEarlyUnlock =>
    cases mu <;> simp [Thread.step, Mutex.Unlock] at h
    obtain ⟨h1, h2⟩ := h
    subst h1 h2
    simp [Thread.needsOpen, Thread.closing]
  | closeSet =>
    simp [Thread.step] at h
    obtain ⟨h1, h2⟩ := h
    subst h1 h2
    simp only [Thread.needsOpen, Thread.closing]
    refine ⟨Or.inr ⟨trivial, trivial, trivial⟩, by simp, ?_⟩
    intro hopen
    simp [hopen trivial]
    omega
  | closeUnlock =>
    cases mu <;> simp [Thread.step, Mutex.Unlock] at h
    obtain ⟨h1, h2⟩ := h
    subst h1 h2
    simp [Thread.needsOpen, Thread.closing]
  | closeChan =>
    cases cc with
    | true => simp [Thread.step, Chan.close] at h
    | false =>
      simp [Thread.step, Chan.close] at h
      obtain ⟨h1, h2⟩ := h
      subst h1 h2
      simp [Thread.needsOpen, Thread.closing]
  | recv =>
    simp only [Thread.step] at h
    cases hrecv : Chan.recv ⟨buf, cap, cc⟩ with
    | done r =>
      obtain ⟨c, v, ok⟩ := r
      have hcc : c.closed = cc := by
        cases buf with
        | nil => cases cc <;> simp [Chan.recv] at hrecv; rw [← hrecv.1]
        | cons x xs => simp [Chan.recv] at hrecv; rw [← hrecv.1]
      simp [hrecv] at h
      obtain ⟨h1, h2⟩ := h
      subst h1 h2
      simp [Thread.needsOpen, Thread.closing, hcc]
    | blocked => simp [hrecv] at h
    | panic => simp [hrecv] at h

theorem Sys.step_safe (i : Nat) (s s1 : Sys) (h : s.step i = .done s1) (safe : s.Safe) :
    s1.Safe := by
  have hmutex := Sys.step_holders i s s1 h safe.mutex
  unfold Sys.step at h
  cases ht : s.threads[i]? with
  | none => simp [ht] at h
  | some t =>
    simp only [ht] at h
    cases hstep : t.step s.f with
    | done r =>
      obtain ⟨t1, f1⟩ := r
      simp [hstep] at h
      subst h
      obtain ⟨hB, hC, hD⟩ := Thread.step_flags t t1 s.f f1 hstep
      have hn := sum_map_set Thread.needsOpen s.threads i t t1 ht
      have hc := sum_map_set Thread.closing s.threads i t t1 ht
      have hnt := le_sum_map_of_getElem? Thread.needsOpen s.threads i t ht
      have hle := sum_map_le_sum_map Thread.needsOpen Thread.holding s.threads
        Thread.needsOpen_le_holding
      have hone : (s.threads.map Thread.holding).sum ≤ 1 := by
        rw [safe.mutex]; split_ifs <;> omega
      have hn1 : t1.needsOpen ≤ 1 := by
        have := Thread.needsOpen_le_holding t1
        unfold Thread.holding at this
        split_ifs at this <;> omega
      have hopen : t.needsOpen = 1 → s.f.closed = false := by
        intro hnt1
        cases hcl : s.f.closed with
        | false => rfl
        | true =>
          have := safe.stillOpen hcl
          omega
      refine ⟨by simpa [Sys.holders] using hmutex, ?_, ?_⟩
      · intro hcl1
        show (List.map Thread.needsOpen (s.threads.set i t1)).sum = 0
        change f1.closed = true at hcl1
        rcases hB with hsame | ⟨h1, h2, _⟩
        · have hz := safe.stillOpen (hsame ▸ hcl1)
          have ht0 : t.needsOpen = 0 := by omega
          have ht1 : t1.needsOpen = 0 := by
            by_contra hne
            have h1 : t1.needsOpen = 1 := by omega
            rcases hC h1 with h | h
            · omega
            · rw [hcl1] at h
              exact absurd h (by simp)
          omega
        · omega
      · have hDD := hD hopen
        have hch := safe.chan
        show (List.map Thread.closing (s.threads.set i t1)).sum +
          (if f1.ch.closed = true then 1 else 0) = if f1.closed = true then 1 else 0
        omega
    | blocked => simp [hstep] at h
    | panic => simp [hstep] at h

theorem Sys.run_safe (sched : List Nat) (s s1 : Sys) (h : Sys.run sched s = .done s1)
    (safe : s.Safe) : s1.Safe := by
  induction sched generalizing s with
  | nil =>
    simp [Sys.run] at h
    subst h
    exact safe
  | cons i rest ih =>
    simp only [Sys.run] at h
    obtain ⟨s2, h2, h3⟩ := Outcome.bind_eq_done.mp h
    exact ih s2 h3 (Sys.step_safe i s s2 h2 safe)

theorem Sys.init_safe (buffer : Int) (progs : List (List Op)) :
    (Sys.init buffer progs).Safe := by
  have hz : ∀ g : Thread → Nat, (∀ ops, g ⟨.idle, ops⟩ = 0) →
      ((Sys.init buffer progs).threads.map g).sum = 0 := by
    intro g hg
    simp only [Sys.init, List.map_map]
    induction progs with
    | nil => simp
    | cons p ps ih => simpa [hg] using ih
  refine ⟨?_, fun _ => hz _ (fun _ => rfl), ?_⟩
  · rw [hz _ (fun _ => rfl)]; rfl
  · rw [hz _ (fun _ => rfl)]; rfl

/-- No statement of `Enqueue`, `Close` or a receive can panic, whatever the
goroutines and their interleaving: no mutex is unlocked twice, nothing is sent
on the closed channel, and the channel is never closed a second time. -/
theorem Sys.never_panics (buffer : Int) (progs : List (List Op)) (sched : List Nat)
    (s : Sys) (hrun : Sys.run sched (Sys.init buffer progs) = .done s) (i : Nat) :
    s.step i ≠ .panic := by
  have safe := Sys.run_safe sched _ s hrun (Sys.init_safe buffer progs)
  unfold Sys.step
  cases ht : s.threads[i]? with
  | none => simp
  | some t =>
    have hh := le_sum_map_of_getElem? Thread.holding s.threads i t ht
    have hn := le_sum_map_of_getElem? Thread.needsOpen s.threads i t ht
    have hc := le_sum_map_of_getElem? Thread.closing s.threads i t ht
    have hmu : t.holding = 1 → s.f.mu = true := by
      intro h1
      have := safe.mutex
      by_contra hne
      rw [if_neg hne] at this
      omega
    have hopen : t.needsOpen = 1 → s.f.ch.closed = false := by
      intro h1
      have hcl : s.f.closed = false := by
        cases hcl : s.f.closed with
        | false => rfl
        | true =>
          have := safe.stillOpen hcl
          omega
      have := safe.chan
      rw [hcl] at this
      cases hcc : s.f.ch.closed with
      | false => rfl
      | true => simp [hcc] at this
    have hclosing : t.closing = 1 → s.f.ch.closed = false := by
      intro h1
      have := safe.chan
      cases hcc : s.f.ch.closed with
      | false => rfl
      | true =>
        simp only [hcc, if_true] at this
        split_ifs at this
        omega
    rcases t with ⟨pc, todo⟩
    cases pc with
    | idle =>
      cases todo with
      | nil => simp [Thread.step]
      | cons op rest => cases op <;> simp [Thread.step]
    | enqLock url => cases hm : s.f.mu <;> simp [Thread.step, Mutex.Lock, hm]
    | enqClosed url => cases hm : s.f.closed <;> simp [Thread.step, hm]
    | enqSeen url => by_cases hs : url ∈ s.f.seen <;> simp [Thread.step, hs]
    | enqInsert url => simp [Thread.step]
    | enqSend url =>
      have := hopen rfl
      by_cases hl : s.f.ch.buf.length < s.f.ch.cap <;> simp [Thread.step, Chan.send, this, hl]
    | enqUnlock ret =>
      have := hmu rfl
      simp [Thread.step, Mutex.Unlock, this]
    | closeLock => cases hm : s.f.mu <;> simp [Thread.step, Mutex.Lock, hm]
    | closeClosed => cases hm : s.f.closed <;> simp [Thread.step, hm]
    | closeEarlyUnlock =>
      have := hmu rfl
      simp [Thread.step, Mutex.Unlock, this]
    | closeSet => simp [Thread.step]
    | closeUnlock =>
      have := hmu rfl
      simp [Thread.step, Mutex.Unlock, this]
    | closeChan =>
      have := hclosing rfl
      simp [Thread.step, Chan.close, this]
    | recv =>
      cases hb : s.f.ch.buf with
      | nil => cases hcc : s.f.ch.closed <;> simp [Thread.step, Chan.recv, hb, hcc]
      | cons v rest => simp [Thread.step, Chan.recv, hb]

/-- Once the `closed` flag is set, no statement of any goroutine resets it. -/
theorem Sys.closed_stays (sched : List Nat) (s s1 : Sys) (h : Sys.run sched s = .done s1)
    (hc : s.f.closed = true) : s1.f.closed = true := by
  induction sched generalizing s with
  | nil =>
    simp [Sys.run] at h
    subst h
    exact hc
  | cons i rest ih =>
    simp only [Sys.run] at h
    obtain ⟨s2, h2, h3⟩ := Outcome.bind_eq_done.mp h
    apply ih s2 h3
    unfold Sys.step at h2
    cases ht : s.threads[i]? with
    | none => simp [ht] at h2
    | some t =>
      simp only [ht] at h2
      cases hstep : t.step s.f with
      | done r =>
        obtain ⟨t1, f1⟩ := r
        simp [hstep] at h2
        subst h2
        rcases (Thread.step_flags t t1 s.f f1 hstep).1 with h | ⟨_, _, h⟩
        · exact h ▸ hc
        · exact h
      | blocked => simp [hstep] at h2
      | panic => simp [hstep] at h2

/-- A goroutine running one call alone, from a Frontier whose mutex is free,
ends where the call taken as a whole ends. -/
theorem solo_call (op : Op) (f f1 : Frontier) (hmu : f.mu = false)
    (h : f.apply op = .done f1) :
    ∃ n, Sys.run (List.replicate n 0) { f := f, threads := [⟨.idle, [op]⟩] } =
      .done { f := f1, threads := [⟨.idle, []⟩] } := by
  rcases f with ⟨mu, seen, ⟨buf, cap, cc⟩, closed⟩
  simp only at hmu
  subst hmu
  cases op with
  | enqueue url =>
    cases closed with
    | true =>
      simp [Frontier.apply, Frontier.Enqueue, Mutex.Lock, Mutex.Unlock] at h
      subst h
      exact ⟨4, by simp [List.replicate, Sys.run, Sys.step, Thread.step, Mutex.Lock, Mutex.Unlock]⟩
    | false =>
      by_cases hs : url ∈ seen
      · simp [Frontier.apply, Frontier.Enqueue, Mutex.Lock, Mutex.Unlock, hs] at h
        subst h
        exact ⟨5, by
          simp [List.replicate, Sys.run, Sys.step, Thread.step, Mutex.Lock, Mutex.Unlock, hs]⟩
      · cases cc with
        | true =>
          simp [Frontier.apply, Frontier.Enqueue, Mutex.Lock, Mutex.Unlock, hs, Chan.send] at h
        | false =>
          by_cases hl : buf.length < cap
          · simp [Frontier.apply, Frontier.Enqueue, Mutex.Lock, Mutex.Unlock, hs, Chan.send,
              hl] at h
            subst h
            exact ⟨7, by
              simp [List.replicate, Sys.run, Sys.step, Thread.step, Mutex.Lock, Mutex.Unlock,
                hs, Chan.send, hl]⟩
          · simp [Frontier.apply, Frontier.Enqueue, Mutex.Lock, Mutex.Unlock, hs, Chan.send,
              hl] at h
  | close =>
    cases closed with
    | true =>
      simp [Frontier.apply, Frontier.Close, Mutex.Lock, Mutex.Unlock] at h
      subst h
      exact ⟨4, by simp [List.replicate, Sys.run, Sys.step, Thread.step, Mutex.Lock, Mutex.Unlock]⟩
    | false =>
      cases cc with
      | true => simp [Frontier.apply, Frontier.Close, Mutex.Lock, Mutex.Unlock, Chan.close] at h
      | false =>
        simp [Frontier.apply, Frontier.Close, Mutex.Lock, Mutex.Unlock, Chan.close] at h
        subst h
        exact ⟨6, by
          simp [List.replicate, Sys.run, Sys.step, Thread.step, Mutex.Lock, Mutex.Unlock,
            Chan.close]⟩
  | recv =>
    cases buf with
    | nil =>
      cases cc with
      | false => simp [Frontier.apply, Frontier.recv, Frontier.Channel, Chan.recv] at h
      | true =>
        simp [Frontier.apply, Frontier.recv, Frontier.Channel, Chan.recv] at h
        subst h
        exact ⟨2, by simp [List.replicate, Sys.run, Sys.step, Thread.step, Chan.recv]⟩
    | cons v rest =>
      simp [Frontier.apply, Frontier.recv, Frontier.Channel, Chan.recv] at h
      subst h
      exact ⟨2, by simp [List.replicate, Sys.run, Sys.step, Thread.step, Chan.recv]⟩

end Conc

/-- C8, as the code has it: in every state reached by goroutines calling one
Frontier, when an `Enqueue` stands at its send (where it waits for queue space)
the mutex is locked, that `Enqueue` is the only goroutine between `Lock()` and
`Unlock()`, and every goroutine at the `Lock()` of `Close` or of `Enqueue`
cannot move; a goroutine at a receive can still move when the queue holds a
value, since receiving takes no lock. -/
theorem Enqueue_sends_with_lock_held (buffer : Int) (progs : List (List Op))
    (sched : List Nat) (s : Conc.Sys)
    (hrun : Conc.Sys.run sched (Conc.Sys.init buffer progs) = .done s)
    (i : Nat) (t : Conc.Thread) (url : GoString)
    (hi : s.threads[i]? = some t) (hpc : t.pc = .enqSend url) :
    s.f.mu = true ∧
    (∀ j tj, j ≠ i → s.threads[j]? = some tj → tj.pc.holds = false) ∧
    (∀ j tj, s.threads[j]? = some tj → (tj.pc = .closeLock ∨ ∃ u, tj.pc = .enqLock u) →
      s.step j = .blocked) ∧
    (∀ j tj, s.threads[j]? = some tj → tj.pc = .recv → s.f.ch.buf ≠ [] →
      ∃ s1, s.step j = .done s1) := by
  have hinv := Conc.Sys.run_holders sched _ s hrun (Conc.Sys.init_holders buffer progs)
  have hti : t.holding = 1 := by simp [Conc.Thread.holding, hpc, Conc.Pc.holds]
  have hone := le_sum_map_of_getElem? Conc.Thread.holding s.threads i t hi
  rw [hti] at hone
  have hmu : s.f.mu = true := by
    simp only [Conc.Sys.holders] at hinv
    by_contra hne
    rw [if_neg hne] at hinv
    omega
  refine ⟨hmu, ?_, ?_, ?_⟩
  · intro j tj hji hj
    have htwo := add_le_sum_map_of_ne Conc.Thread.holding s.threads i j t tj
      (Ne.symm hji) hi hj
    simp only [Conc.Sys.holders, hmu, if_true] at hinv
    rw [hti, hinv] at htwo
    by_contra hne
    simp only [Bool.not_eq_false] at hne
    simp [Conc.Thread.holding, hne] at htwo
  · intro j tj hj hpcj
    rcases tj with ⟨pcj, todo⟩
    rcases hpcj with h | ⟨u, h⟩ <;> simp only at h <;> subst h <;>
      simp [Conc.Sys.step, hj, Conc.Thread.step, Mutex.Lock, hmu]
  · intro j tj hj hpcj hbuf
    rcases tj with ⟨pcj, todo⟩
    simp only at hpcj
    subst hpcj
    cases hb : s.f.ch.buf with
    | nil => exact absurd hb hbuf
    | cons v rest =>
      exact ⟨{ f := { s.f with ch := { s.f.ch with buf := rest } },
               threads := s.threads.set j { pc := .idle, todo := todo } },
        by simp [Conc.Sys.step, hj, Conc.Thread.step, Chan.recv, hb]⟩

theorem Enqueue_sends_with_lock_held_witness :
    Conc.Sys.run Conc.fullQueueSchedule
        (Conc.Sys.init 1 [[.enqueue (lit "a")], [.enqueue (lit "b")], [.close]]) =
      .done Conc.fullQueueBlocked ∧
    Conc.fullQueueBlocked.threads[1]? = some ⟨.enqSend (lit "b"), []⟩ ∧
    (Conc.fullQueueBlocked.f.mu = true ∧
      (∀ j tj, j ≠ 1 → Conc.fullQueueBlocked.threads[j]? = some tj → tj.pc.holds = false) ∧
      (∀ j tj, Conc.fullQueueBlocked.threads[j]? = some tj →
        (tj.pc = .closeLock ∨ ∃ u, tj.pc = .enqLock u) →
        Conc.fullQueueBlocked.step j = .blocked) ∧
      (∀ j tj, Conc.fullQueueBlocked.threads[j]? = some tj → tj.pc = .recv →
        Conc.fullQueueBlocked.f.ch.buf ≠ [] →
        ∃ s1, Conc.fullQueueBlocked.step j = .done s1)) :=
  ⟨rfl, rfl,
    Enqueue_sends_with_lock_held 1 [[.enqueue (lit "a")], [.enqueue (lit "b")], [.close]]
      Conc.fullQueueSchedule Conc.fullQueueBlocked rfl 1 ⟨.enqSend (lit "b"), []⟩ (lit "b")
      rfl rfl⟩

/-- C8, against the claim as written: two goroutines enqueue `a` and `b` into
a Frontier of capacity 1 and a third calls `Close`. Once `a` is queued, the
second `Enqueue` stands at its send with the queue full and the mutex locked;
the `Close` stands at its `Lock()` and cannot move, and no goroutine can. -/
theorem Enqueue_waits_with_lock_held :
    ∃ s, Conc.Sys.run Conc.fullQueueSchedule Conc.fullQueue = .done s ∧
      s.threads = [⟨.idle, []⟩, ⟨.enqSend (lit "b"), []⟩, ⟨.closeLock, []⟩] ∧
      s.f.ch.buf = [lit "a"] ∧ s.f.ch.cap = 1 ∧ s.f.mu = true ∧
      s.step 1 = .blocked ∧ s.step 2 = .blocked ∧ ∀ j, s.step j = .blocked := by
  refine ⟨Conc.fullQueueBlocked, by rfl, rfl, rfl, rfl, rfl, by rfl, by rfl, ?_⟩
  intro j
  match j with
  | 0 => rfl
  | 1 => rfl
  | 2 => rfl
  | j + 3 => rfl

/-! ## `Pipeline.Run`: what a step does -/

namespace Run

theorem stepWorker_done (fetcher : Fetcher) (i : Nat) (s s1 : State)
    (h : stepWorker fetcher i s = .done s1) :
    ∃ w, s.workers[i]? = some w ∧
      match w with
      | .range =>
        (∃ v rest, s.f.ch.buf = v :: rest ∧
          s1 = { s with f := { s.f with ch := { s.f.ch with buf := rest } },
                        workers := s.workers.set i (.fetch v) }) ∨
        (s.f.ch.buf = [] ∧ s.f.ch.closed = true ∧
          s1 = { s with workers := s.workers.set i .wgDone })
      | .fetch u =>
        ((fetcher u).2 ≠ none ∧ s1 = { s with workers := s.workers.set i .range }) ∨
        ((fetcher u).2 = none ∧
          s1 = { s with workers := s.workers.set i (.parse u (fetcher u).1) })
      | .parse u res =>
        s1 = { s with workers := s.workers.set i (.save u res (ExtractLinks res.Body)) }
      | .save u res links =>
        s.store.mu = false ∧
        s1 = { s with store := { s.store with pages := s.store.pages ++ [mkPage u res links] },
                      workers := s.workers.set i .range }
      | .wgDone =>
        0 ≤ wrapInt32 (s.wg + -1) ∧
        s1 = { s with wg := wrapInt32 (s.wg + -1), workers := s.workers.set i .exited }
      | .exited => False := by
  unfold stepWorker at h
  cases hw : s.workers[i]? with
  | none => simp [hw] at h
  | some w =>
    refine ⟨w, rfl, ?_⟩
    simp only [hw] at h
    cases w with
    | range =>
      simp only [Frontier.recv, Frontier.Channel, Chan.recv] at h
      cases hb : s.f.ch.buf with
      | nil =>
        cases hc : s.f.ch.closed with
        | false => simp [hb, hc] at h
        | true =>
          simp [hb, hc] at h
          right
          refine ⟨rfl, rfl, ?_⟩
          rw [← h]
      | cons v rest =>
        simp [hb] at h
        left
        exact ⟨v, rest, rfl, h.symm⟩
    | fetch u =>
      by_cases he : (fetcher u).2 = none
      · simp [he] at h
        exact Or.inr ⟨he, h.symm⟩
      · simp [he] at h
        exact Or.inl ⟨he, h.symm⟩
    | parse u res =>
      simp at h
      exact h.symm
    | save u res links =>
      cases hm : s.store.mu with
      | true => simp [MemStore.Save, Mutex.Lock, hm] at h
      | false =>
        simp [MemStore.Save_unlocked _ _ hm] at h
        exact ⟨rfl, h.symm⟩
    | wgDone =>
      simp only [WaitGroup.Done, WaitGroup.Add] at h
      by_cases hneg : wrapInt32 (s.wg + -1) < 0
      · simp [hneg] at h
      · simp [hneg] at h
        exact ⟨by omega, h.symm⟩
    | exited => simp at h

theorem stepMain_done (s s1 : State) (h : stepMain s = .done s1) :
    match s.main with
    | .spawn i =>
      (i < s.Workers ∧
        s1 = { s with workers := s.workers ++ [.range], main := .spawn (i + 1) }) ∨
      (¬ i < s.Workers ∧ s1 = { s with main := .close })
    | .close => ∃ f, s.f.Close = .done f ∧ s1 = { s with f := f, main := .wait }
    | .wait => s.wg = 0 ∧ s1 = { s with main := .returned }
    | .returned => False := by
  unfold stepMain at h
  cases hm : s.main with
  | spawn i =>
    simp only [hm] at h
    by_cases hi : i < s.Workers
    · simp [hi] at h
      exact Or.inl ⟨hi, h.symm⟩
    · simp [hi] at h
      exact Or.inr ⟨hi, h.symm⟩
  | close =>
    simp only [hm] at h
    obtain ⟨f, hf, hs⟩ := Outcome.bind_eq_done.mp h
    simp at hs
    exact ⟨f, hf, hs.symm⟩
  | wait =>
    simp only [hm] at h
    by_cases hw : s.wg = 0
    · rw [if_pos hw] at h
      exact ⟨hw, (Outcome.done.inj h).symm⟩
    · simp [hw] at h
  | returned => simp [hm] at h

end Run

/-! ## `Pipeline.Run`: invariant, progress and termination -/

theorem exists_pos_of_sum_map_pos {α : Type} (g : α → Nat) (l : List α)
    (h : 0 < (l.map g).sum) : ∃ (i : Nat) (a : α), l[i]? = some a ∧ 0 < g a := by
  induction l with
  | nil => simp at h
  | cons x xs ih =>
    by_cases hx : 0 < g x
    · exact ⟨0, x, by simp, hx⟩
    · simp only [List.map_cons, List.sum_cons] at h
      obtain ⟨i, a, hi, ha⟩ := ih (by omega)
      exact ⟨i + 1, a, by simpa using hi, ha⟩

theorem eq_zero_of_sum_map_eq_zero {α : Type} (g : α → Nat) (l : List α)
    (h : (l.map g).sum = 0) : ∀ x ∈ l, g x = 0 := by
  induction l with
  | nil => simp
  | cons x xs ih =>
    simp only [List.map_cons, List.sum_cons] at h
    intro y hy
    rcases List.mem_cons.mp hy with rfl | hy
    · omega
    · exact ih (by omega) y hy

namespace Run

theorem wrapInt32_of_range (x : Int) (h0 : 0 ≤ x) (h1 : x ≤ maxInt32) : wrapInt32 x = x := by
  unfold maxInt32 at h1
  unfold wrapInt32
  omega

theorem start_eq (workers : Int) (fetcher : Fetcher) (seeds : List GoString)
    (hmax : workers ≤ maxInt32) :
    start ⟨workers, fetcher, NewMem⟩ seeds = .done
      { Workers := if workers ≤ 0 then 2 else workers,
        f := { New seeds.length with
               seen := seeds.toFinset,
               ch := { (New seeds.length).ch with buf := firstOccurrences seeds } },
        store := NewMem,
        wg := if workers ≤ 0 then 2 else workers,
        main := .spawn 0,
        workers := [] } := by
  have hc : seeds.toFinset.card ≤ (New seeds.length).ch.cap := by
    have := List.toFinset_card_le seeds
    rw [New_cap]
    omega
  obtain ⟨oks, h1, _⟩ := New_enqueueAll seeds seeds.length hc
  have hW : wrapInt32 (if workers ≤ 0 then 2 else workers) =
      (if workers ≤ 0 then 2 else workers) := by
    apply wrapInt32_of_range
    · split_ifs <;> omega
    · unfold maxInt32 at hmax ⊢
      split_ifs <;> omega
  have hpos : ¬ (if workers ≤ 0 then (2 : Int) else workers) < 0 := by
    split_ifs <;> omega
  simp [start, seedLoop_eq_enqueueAll, h1, WaitGroup.Add, hW, hpos]

theorem start_inv (workers : Int) (fetcher : Fetcher) (seeds : List GoString)
    (hmax : workers ≤ maxInt32) :
    Inv fetcher (firstOccurrences seeds)
      { Workers := if workers ≤ 0 then 2 else workers,
        f := { New seeds.length with
               seen := seeds.toFinset,
               ch := { (New seeds.length).ch with buf := firstOccurrences seeds } },
        store := NewMem,
        wg := if workers ≤ 0 then 2 else workers,
        main := .spawn 0,
        workers := [] } := by
  have hpos : (0 : Int) < (if workers ≤ 0 then 2 else workers) := by
    split_ifs <;> omega
  have hle : (if workers ≤ 0 then 2 else workers) ≤ maxInt32 := by
    unfold maxInt32 at hmax ⊢
    split_ifs <;> omega
  refine ⟨?_, rfl, rfl, rfl, ?_, ?_, ?_, ?_, ?_, ?_, ?_, hle, by simpa using le_of_lt hpos, le_rfl⟩
  · show 0 < (if workers ≤ 0 then 2 else workers)
    split_ifs <;> omega
  · simp [New]
  · intro i hi
    simp only [MPc.spawn.injEq] at hi
    subst hi
    refine ⟨rfl, ?_⟩
    show (0 : Int) ≤ (if workers ≤ 0 then 2 else workers)
    split_ifs <;> omega
  · intro hall
    exact absurd rfl (hall 0)
  · simp
  · intro hr; simp at hr
  · intro hpos; simp at hpos
  · simp [NewMem]

theorem stepMain_inv (fetcher : Fetcher) (D : List GoString) (s s1 : State)
    (h : stepMain s = .done s1) (inv : Inv fetcher D s) : Inv fetcher D s1 := by
  have hd := stepMain_done s s1 h
  obtain ⟨h1, h2, h3, h4, h5, h6, h7, h8, h9, h10, h11, h12, h13, h14⟩ := inv
  cases hm : s.main with
  | spawn i =>
    simp only [hm] at hd
    have hopen : s.f.closed = false := by
      cases hc : s.f.closed with
      | false => rfl
      | true => simpa [hm] using h5.mp hc
    obtain ⟨hlen, hle⟩ := h6 i hm
    rcases hd with ⟨hi, rfl⟩ | ⟨hi, rfl⟩
    · refine ⟨h1, h2, h3, h4, ?_, ?_, ?_, ?_, ?_, ?_, ?_, h12, ?_, h14⟩
      · simp [hopen]
      · intro j hj
        simp only [MPc.spawn.injEq] at hj
        subst hj
        simp only [List.length_append, List.length_singleton, Nat.cast_add, Nat.cast_one]
        omega
      · intro hall
        exact absurd rfl (hall (i + 1))
      · simp only [List.length_append, List.length_singleton, List.map_append, List.sum_append,
          List.map_cons, List.map_nil, List.sum_cons, List.sum_nil, live]
        push_cast
        push_cast at h8
        omega
      · intro hr; simp at hr
      · simpa [finishing] using h10
      · simpa [inflight] using h11
      · simp only [List.length_append, List.length_singleton, Nat.cast_add, Nat.cast_one]
        omega
    · refine ⟨h1, h2, h3, h4, ?_, ?_, ?_, h8, ?_, h10, h11, h12, h13, h14⟩
      · simp [hopen]
      · intro j hj; simp at hj
      · intro _
        show (s.workers.length : Int) = s.Workers
        omega
      · intro hr; simp at hr
  | close =>
    simp only [hm] at hd
    obtain ⟨f, hf, rfl⟩ := hd
    rw [Frontier.Close_atRest s.f ⟨h3, h4⟩] at hf
    simp only [Outcome.done.injEq] at hf
    subst hf
    refine ⟨h1, h2, h3, rfl, ?_, ?_, ?_, h8, ?_, h10, h11, h12, h13, h14⟩
    · simp
    · intro j hj; simp at hj
    · intro _
      exact h7 (by simp [hm])
    · intro hr; simp at hr
  | wait =>
    simp only [hm] at hd
    obtain ⟨hw, rfl⟩ := hd
    refine ⟨h1, h2, h3, h4, ?_, ?_, ?_, h8, ?_, h10, h11, h12, h13, h14⟩
    · have := h5.mpr (Or.inl hm)
      simp [this]
    · intro j hj; simp at hj
    · intro _
      exact h7 (by simp [hm])
    · intro _; exact hw
  | returned => simp [hm] at hd


theorem coe_filterMap_cons {α β : Type} (g : α → Option β) (a : α) (l : List α) :
    (((a :: l).filterMap g : List β) : Multiset β) =
      ((g a).toList : Multiset β) + ((l.filterMap g : List β) : Multiset β) := by
  cases h : g a with
  | none => simp [List.filterMap_cons, h]
  | some b => simp [List.filterMap_cons, h]

theorem pageOf_of_err (fetcher : Fetcher) (u : GoString) (h : (fetcher u).2 ≠ none) :
    pageOf fetcher u = none := by
  simp [pageOf, h]

theorem pageOf_of_ok (fetcher : Fetcher) (u : GoString) (h : (fetcher u).2 = none) :
    pageOf fetcher u = some (mkPage u (fetcher u).1 (ExtractLinks (fetcher u).1.Body)) := by
  simp [pageOf, h]

theorem stepWorker_inv (fetcher : Fetcher) (D : List GoString) (i : Nat) (s s1 : State)
    (h : stepWorker fetcher i s = .done s1) (inv : Inv fetcher D s) : Inv fetcher D s1 := by
  obtain ⟨w, hw, hd⟩ := stepWorker_done fetcher i s s1 h
  obtain ⟨h1, h2, h3, h4, h5, h6, h7, h8, h9, h10, h11, h12, h13, h14⟩ := inv
  have hlive := fun w1 => sum_map_set live s.workers i w w1 hw
  have hfin := fun w1 => sum_map_set finishing s.workers i w w1 hw
  have hinf := fun w1 => sum_map_set (inflight fetcher) s.workers i w w1 hw
  cases w with
  | range =>
    simp only at hd
    rcases hd with ⟨v, rest, hb, rfl⟩ | ⟨hb, hc, rfl⟩
    · have hl := hlive (.fetch v)
      have hf := hfin (.fetch v)
      have hi := hinf (.fetch v)
      simp only [live, finishing, inflight, add_zero] at hl hf hi
      refine ⟨h1, h2, h3, h4, h5, ?_, ?_, ?_, h9, ?_, ?_, h12, by simpa using h13, h14⟩
      · simpa using h6
      · simpa using h7
      · simp only [List.length_set]
        omega
      · intro hpos
        rw [hf] at hpos
        have := h10 hpos
        rw [hb] at this
        exact absurd this (by simp)
      · rw [hb, coe_filterMap_cons] at h11
        rw [← h11, hi]
        abel
    · have hl := hlive .wgDone
      have hf := hfin .wgDone
      have hi := hinf .wgDone
      simp only [live, finishing, inflight, add_zero] at hl hf hi
      refine ⟨h1, h2, h3, h4, h5, ?_, ?_, ?_, h9, ?_, ?_, h12, by simpa using h13, h14⟩
      · simpa using h6
      · simpa using h7
      · simp only [List.length_set]
        omega
      · intro _; exact hb
      · rw [← h11, hi]
  | fetch u =>
    simp only at hd
    rcases hd with ⟨he, rfl⟩ | ⟨he, rfl⟩
    · have hl := hlive .range
      have hf := hfin .range
      have hi := hinf .range
      simp only [live, finishing, inflight, add_zero, pageOf_of_err fetcher u he,
        Option.toList_none, Multiset.coe_nil] at hl hf hi
      refine ⟨h1, h2, h3, h4, h5, ?_, ?_, ?_, h9, ?_, ?_, h12, by simpa using h13, h14⟩
      · simpa using h6
      · simpa using h7
      · simp only [List.length_set]
        omega
      · intro hpos
        dsimp only at hpos
        exact h10 (by omega)
      · rw [← h11, hi]
    · have hl := hlive (.parse u (fetcher u).1)
      have hf := hfin (.parse u (fetcher u).1)
      have hi := hinf (.parse u (fetcher u).1)
      simp only [live, finishing, inflight, add_zero, pageOf_of_ok fetcher u he,
        Option.toList_some, Multiset.coe_singleton] at hl hf hi
      have hi2 := add_right_cancel hi
      refine ⟨h1, h2, h3, h4, h5, ?_, ?_, ?_, h9, ?_, ?_, h12, by simpa using h13, h14⟩
      · simpa using h6
      · simpa using h7
      · simp only [List.length_set]
        omega
      · intro hpos
        dsimp only at hpos
        exact h10 (by omega)
      · rw [← h11, hi2]
  | parse u res =>
    simp only at hd
    subst hd
    have hl := hlive (.save u res (ExtractLinks res.Body))
    have hf := hfin (.save u res (ExtractLinks res.Body))
    have hi := hinf (.save u res (ExtractLinks res.Body))
    simp only [live, finishing, inflight, add_zero] at hl hf hi
    have hi2 := add_right_cancel hi
    refine ⟨h1, h2, h3, h4, h5, ?_, ?_, ?_, h9, ?_, ?_, h12, by simpa using h13, h14⟩
    · simpa using h6
    · simpa using h7
    · simp only [List.length_set]
      omega
    · intro hpos
      dsimp only at hpos
      exact h10 (by omega)
    · rw [← h11, hi2]
  | save u res links =>
    simp only at hd
    obtain ⟨_, rfl⟩ := hd
    have hl := hlive .range
    have hf := hfin .range
    have hi := hinf .range
    simp only [live, finishing, inflight, add_zero] at hl hf hi
    refine ⟨h1, h2, h3, h4, h5, ?_, ?_, ?_, h9, ?_, ?_, h12, by simpa using h13, h14⟩
    · simpa using h6
    · simpa using h7
    · simp only [List.length_set]
      omega
    · intro hpos
      dsimp only at hpos
      exact h10 (by omega)
    · rw [← h11, ← hi]
      show _ + _ + ((s.store.pages ++ [mkPage u res links] : List Page) : Multiset Page) = _
      rw [← Multiset.coe_add, Multiset.coe_singleton]
      abel
  | wgDone =>
    simp only at hd
    have hone := le_sum_map_of_getElem? live s.workers i .wgDone hw
    simp only [live] at hone
    have hwrap : wrapInt32 (s.wg + -1) = s.wg - 1 := by
      rw [wrapInt32_of_range (s.wg + -1) (by omega) (by omega)]
      omega
    rw [hwrap] at hd
    obtain ⟨_, rfl⟩ := hd
    have hl := hlive .exited
    have hf := hfin .exited
    have hi := hinf .exited
    simp only [live, finishing, inflight, add_zero] at hl hf hi
    refine ⟨h1, h2, h3, h4, h5, ?_, ?_, ?_, ?_, ?_, ?_, h12, by simpa using h13, ?_⟩
    · simpa using h6
    · simpa using h7
    · simp only [List.length_set]
      omega
    · intro hr
      have hwg := h9 hr
      have hlen := h7 (by simp [show s.main = .returned from hr])
      show s.wg - 1 = 0
      omega
    · intro hpos
      dsimp only at hpos
      exact h10 (by omega)
    · rw [← h11, hi]
    · show s.wg - 1 ≤ s.Workers
      omega
  | exited => simp at hd


/-- A worker at its `wg.Done()` finds the counter positive. -/
theorem Inv.wgDone_ok {fetcher : Fetcher} {D : List GoString} {s : State}
    (inv : Inv fetcher D s) (i : Nat) (hw : s.workers[i]? = some .wgDone) :
    WaitGroup.Done s.wg = .done (s.wg - 1) := by
  have hone := le_sum_map_of_getElem? live s.workers i .wgDone hw
  simp only [live] at hone
  have h8 := inv.wg_live
  have h12 := inv.workers_max
  have h13 := inv.len_le
  have h14 := inv.wg_le
  have hwrap : wrapInt32 (s.wg + -1) = s.wg - 1 := by
    rw [wrapInt32_of_range (s.wg + -1) (by omega) (by omega)]
    omega
  have hneg : ¬ s.wg - 1 < 0 := by omega
  simp [WaitGroup.Done, WaitGroup.Add, hwrap, hneg]

theorem step_inv (fetcher : Fetcher) (D : List GoString) (t : Tid) (s s1 : State)
    (h : step fetcher t s = .done s1) (inv : Inv fetcher D s) : Inv fetcher D s1 := by
  cases t with
  | main => exact stepMain_inv fetcher D s s1 h inv
  | worker i => exact stepWorker_inv fetcher D i s s1 h inv

theorem run_inv (fetcher : Fetcher) (D : List GoString) (sched : List Tid) (s s1 : State)
    (h : run fetcher sched s = .done s1) (inv : Inv fetcher D s) : Inv fetcher D s1 := by
  induction sched generalizing s with
  | nil =>
    simp [run] at h
    subst h
    exact inv
  | cons t ts ih =>
    simp only [run] at h
    obtain ⟨s2, h2, h3⟩ := Outcome.bind_eq_done.mp h
    exact ih s2 h3 (step_inv fetcher D t s s2 h2 inv)

theorem step_ne_panic (fetcher : Fetcher) (D : List GoString) (t : Tid) (s : State)
    (inv : Inv fetcher D s) : step fetcher t s ≠ .panic := by
  cases t with
  | main =>
    simp only [step, stepMain]
    cases hm : s.main with
    | spawn i => simp only []; split_ifs <;> simp
    | close => simp [Frontier.Close_atRest s.f ⟨inv.f_unlocked, inv.flags⟩]
    | wait => simp only []; split_ifs <;> simp
    | returned => simp
  | worker i =>
    simp only [step, stepWorker]
    cases hw : s.workers[i]? with
    | none => simp
    | some w =>
      cases w with
      | range =>
        simp only [Frontier.recv, Frontier.Channel, Chan.recv]
        cases hb : s.f.ch.buf with
        | nil => cases hc : s.f.ch.closed <;> simp
        | cons v rest => simp
      | fetch u => simp only []; split_ifs <;> simp
      | parse u res => simp
      | save u res links => simp [MemStore.Save_unlocked _ _ inv.store_unlocked]
      | wgDone => simp [inv.wgDone_ok i hw]
      | exited => simp

theorem progress (fetcher : Fetcher) (D : List GoString) (s : State)
    (inv : Inv fetcher D s) (hm : s.main ≠ .returned) :
    ∃ t s1, step fetcher t s = .done s1 := by
  cases hmain : s.main with
  | spawn i =>
    by_cases hi : i < s.Workers
    · exact ⟨.main, _, by simp only [step, stepMain, hmain, if_pos hi]; rfl⟩
    · exact ⟨.main, _, by simp only [step, stepMain, hmain, if_neg hi]; rfl⟩
  | close =>
    exact ⟨.main, { s with f := { s.f with closed := true, ch := { s.f.ch with closed := true } },
                           main := .wait }, by
      simp [step, stepMain, hmain, Frontier.Close_atRest s.f ⟨inv.f_unlocked, inv.flags⟩]⟩
  | wait =>
    by_cases hw : s.wg = 0
    · exact ⟨.main, _, by simp only [step, stepMain, hmain, if_pos hw]; rfl⟩
    · have hlen := inv.spawned (by simp [hmain])
      have hsum := inv.wg_live
      have hpos : 0 < (s.workers.map live).sum := by omega
      obtain ⟨i, w, hi, hlive⟩ := exists_pos_of_sum_map_pos live s.workers hpos
      have hclosed : s.f.ch.closed = true := by
        rw [inv.flags]
        exact inv.closed_iff.mpr (Or.inl hmain)
      cases w with
      | range =>
        cases hb : s.f.ch.buf with
        | nil =>
          exact ⟨.worker i, { s with workers := s.workers.set i .wgDone }, by
            simp [step, stepWorker, hi, Frontier.recv, Frontier.Channel, Chan.recv, hb, hclosed]⟩
        | cons v rest =>
          exact ⟨.worker i, { s with f := { s.f with ch := { s.f.ch with buf := rest } },
                                      workers := s.workers.set i (.fetch v) }, by
            simp [step, stepWorker, hi, Frontier.recv, Frontier.Channel, Chan.recv, hb]⟩
      | fetch u =>
        by_cases he : (fetcher u).2 = none
        · exact ⟨.worker i, { s with workers := s.workers.set i (.parse u (fetcher u).1) }, by
            simp [step, stepWorker, hi, he]⟩
        · exact ⟨.worker i, { s with workers := s.workers.set i .range }, by
            simp [step, stepWorker, hi, he]⟩
      | parse u res =>
        exact ⟨.worker i, _, by simp only [step, stepWorker, hi]; rfl⟩
      | save u res links =>
        exact ⟨.worker i,
          { s with store := { s.store with pages := s.store.pages ++ [mkPage u res links] },
                   workers := s.workers.set i .range }, by
          simp [step, stepWorker, hi, MemStore.Save_unlocked _ _ inv.store_unlocked]⟩
      | wgDone =>
        exact ⟨.worker i, { s with wg := s.wg - 1, workers := s.workers.set i .exited }, by
          simp [step, stepWorker, hi, inv.wgDone_ok i hi]⟩
      | exited => simp [live] at hlive
  | returned => exact absurd hmain hm

theorem stepMain_measure (s s1 : State) (h : stepMain s = .done s1) :
    measure s1 < measure s := by
  have hd := stepMain_done s s1 h
  cases hm : s.main with
  | spawn i =>
    simp only [hm] at hd
    rcases hd with ⟨hi, rfl⟩ | ⟨hi, rfl⟩
    · simp only [measure, hm, mainRank, List.map_append, List.sum_append, List.map_cons,
        List.map_nil, List.sum_cons, List.sum_nil, rank]
      omega
    · simp only [measure, hm, mainRank]
      omega
  | close =>
    simp only [hm] at hd
    obtain ⟨f, hf, rfl⟩ := hd
    have hbuf : f.ch.buf = s.f.ch.buf := by
      unfold Frontier.Close at hf
      cases hmu : s.f.mu <;> cases hc : s.f.closed <;> cases hcc : s.f.ch.closed <;>
        simp [Mutex.Lock, Mutex.Unlock, Chan.close, hmu, hc, hcc] at hf <;>
        subst hf <;> rfl
    simp only [measure, hm, mainRank, hbuf]
    omega
  | wait =>
    simp only [hm] at hd
    obtain ⟨_, rfl⟩ := hd
    simp only [measure, hm, mainRank]
    omega
  | returned => simp [hm] at hd

theorem stepWorker_measure (fetcher : Fetcher) (i : Nat) (s s1 : State)
    (h : stepWorker fetcher i s = .done s1) : measure s1 < measure s := by
  obtain ⟨w, hw, hd⟩ := stepWorker_done fetcher i s s1 h
  have hsum := fun w1 => sum_map_set rank s.workers i w w1 hw
  cases w with
  | range =>
    simp only at hd
    rcases hd with ⟨v, rest, hb, rfl⟩ | ⟨hb, hc, rfl⟩
    · have := hsum (.fetch v)
      simp only [measure, hb, List.length_cons, rank] at this ⊢
      omega
    · have := hsum .wgDone
      simp only [measure, rank] at this ⊢
      omega
  | fetch u =>
    simp only at hd
    rcases hd with ⟨_, rfl⟩ | ⟨_, rfl⟩
    · have := hsum .range
      simp only [measure, rank] at this ⊢
      omega
    · have := hsum (.parse u (fetcher u).1)
      simp only [measure, rank] at this ⊢
      omega
  | parse u res =>
    simp only at hd
    subst hd
    have := hsum (.save u res (ExtractLinks res.Body))
    simp only [measure, rank] at this ⊢
    omega
  | save u res links =>
    simp only at hd
    obtain ⟨_, rfl⟩ := hd
    have := hsum .range
    simp only [measure, rank] at this ⊢
    omega
  | wgDone =>
    simp only at hd
    obtain ⟨_, rfl⟩ := hd
    have := hsum .exited
    simp only [measure, rank] at this ⊢
    omega
  | exited => simp at hd

theorem step_measure (fetcher : Fetcher) (t : Tid) (s s1 : State)
    (h : step fetcher t s = .done s1) : measure s1 < measure s := by
  cases t with
  | main => exact stepMain_measure s s1 h
  | worker i => exact stepWorker_measure fetcher i s s1 h

theorem run_measure (fetcher : Fetcher) (sched : List Tid) (s s1 : State)
    (h : run fetcher sched s = .done s1) : sched.length + measure s1 ≤ measure s := by
  induction sched generalizing s with
  | nil =>
    simp [run] at h
    subst h
    simp
  | cons t ts ih =>
    simp only [run] at h
    obtain ⟨s2, h2, h3⟩ := Outcome.bind_eq_done.mp h
    have := ih s2 h3
    have := step_measure fetcher t s s2 h2
    simp only [List.length_cons]
    omega

theorem step_Workers (fetcher : Fetcher) (t : Tid) (s s1 : State)
    (h : step fetcher t s = .done s1) : s1.Workers = s.Workers := by
  cases t with
  | main =>
    have hd := stepMain_done s s1 h
    cases hm : s.main with
    | spawn i =>
      simp only [hm] at hd
      rcases hd with ⟨_, rfl⟩ | ⟨_, rfl⟩ <;> rfl
    | close =>
      simp only [hm] at hd
      obtain ⟨f, _, rfl⟩ := hd
      rfl
    | wait =>
      simp only [hm] at hd
      obtain ⟨_, rfl⟩ := hd
      rfl
    | returned => simp [hm] at hd
  | worker i =>
    obtain ⟨w, _, hd⟩ := stepWorker_done fetcher i s s1 h
    cases w with
    | range =>
      simp only at hd
      rcases hd with ⟨v, rest, _, rfl⟩ | ⟨_, _, rfl⟩ <;> rfl
    | fetch u =>
      simp only at hd
      rcases hd with ⟨_, rfl⟩ | ⟨_, rfl⟩ <;> rfl
    | parse u res => simp only at hd; subst hd; rfl
    | save u res links => simp only at hd; obtain ⟨_, rfl⟩ := hd; rfl
    | wgDone => simp only at hd; obtain ⟨_, rfl⟩ := hd; rfl
    | exited => simp at hd

theorem run_Workers (fetcher : Fetcher) (sched : List Tid) (s s1 : State)
    (h : run fetcher sched s = .done s1) : s1.Workers = s.Workers := by
  induction sched generalizing s with
  | nil =>
    simp [run] at h
    subst h
    rfl
  | cons t ts ih =>
    simp only [run] at h
    obtain ⟨s2, h2, h3⟩ := Outcome.bind_eq_done.mp h
    rw [ih s2 h3, step_Workers fetcher t s s2 h2]

theorem exists_returning_run (fetcher : Fetcher) (D : List GoString) (n : Nat) :
    ∀ s : State, measure s ≤ n → Inv fetcher D s →
      ∃ sched s1, run fetcher sched s = .done s1 ∧ s1.main = .returned := by
  induction n with
  | zero =>
    intro s hn inv
    by_cases hr : s.main = .returned
    · exact ⟨[], s, rfl, hr⟩
    · obtain ⟨t, s1, h1⟩ := progress fetcher D s inv hr
      have := step_measure fetcher t s s1 h1
      omega
  | succ n ih =>
    intro s hn inv
    by_cases hr : s.main = .returned
    · exact ⟨[], s, rfl, hr⟩
    · obtain ⟨t, s1, h1⟩ := progress fetcher D s inv hr
      have hlt := step_measure fetcher t s s1 h1
      obtain ⟨sched, s2, h2, hr2⟩ := ih s1 (by omega) (step_inv fetcher D t s s1 h1 inv)
      exact ⟨t :: sched, s2, by simp [run, h1, h2], hr2⟩

theorem sum_inflight_exited (fetcher : Fetcher) (l : List WPc)
    (h : ∀ w ∈ l, w = .exited) : (l.map (inflight fetcher)).sum = 0 := by
  induction l with
  | nil => simp
  | cons x xs ih =>
    have hx : x = .exited := h x (List.mem_cons_self _ _)
    subst hx
    simp only [List.map_cons, List.sum_cons, inflight, zero_add]
    exact ih (fun w hw => h w (List.mem_cons_of_mem _ hw))

theorem returned_store (fetcher : Fetcher) (D : List GoString) (s : State)
    (inv : Inv fetcher D s) (hr : s.main = .returned) :
    (∀ w ∈ s.workers, w = .exited) ∧ (s.workers.length : Int) = s.Workers ∧
    s.f.ch.buf = [] ∧
    (s.store.pages : Multiset Page) = ((D.filterMap (pageOf fetcher) : List Page) : Multiset Page) := by
  have hwg := inv.returned_wg hr
  have hlen := inv.spawned (by simp [hr])
  have hsum := inv.wg_live
  have hzero : (s.workers.map live).sum = 0 := by omega
  have hall : ∀ w ∈ s.workers, w = .exited := by
    intro w hw
    have := eq_zero_of_sum_map_eq_zero live s.workers hzero w hw
    cases w <;> simp [live] at this
    rfl
  have hbuf : s.f.ch.buf = [] := by
    apply inv.drained
    have hpos := inv.workers_pos
    cases hws : s.workers with
    | nil =>
      rw [hws] at hlen
      simp only [List.length_nil, Nat.cast_zero] at hlen
      omega
    | cons w ws =>
      have hw : w = .exited := hall w (by rw [hws]; exact List.mem_cons_self _ _)
      subst hw
      simp only [List.map_cons, List.sum_cons, finishing]
      omega
  refine ⟨hall, hlen, hbuf, ?_⟩
  have hp := inv.pages
  rw [hbuf, sum_inflight_exited fetcher s.workers hall] at hp
  simpa using hp

theorem length_filterMap_pageOf (fetcher : Fetcher) (l : List GoString) :
    (l.filterMap (pageOf fetcher)).length =
      (l.filter (fun u => (fetcher u).2 = none)).length := by
  induction l with
  | nil => rfl
  | cons u us ih =>
    by_cases he : (fetcher u).2 = none
    · simp [List.filterMap_cons, List.filter_cons, pageOf, he, ih]
    · simp [List.filterMap_cons, List.filter_cons, pageOf, he, ih]

theorem length_pages_eq_card (fetcher : Fetcher) (seeds : List GoString) :
    ((firstOccurrences seeds).filterMap (pageOf fetcher)).length =
      (seeds.toFinset.filter (fun u => (fetcher u).2 = none)).card := by
  rw [length_filterMap_pageOf]
  have hnd : ((firstOccurrences seeds).filter (fun u => (fetcher u).2 = none)).Nodup :=
    (nodup_firstOccurrences seeds).filter _
  rw [← List.toFinset_card_of_nodup hnd]
  congr 1
  ext v
  simp [mem_firstOccurrences]

end Run

/-- C5, as the code has it: `Pipeline.Run` on an empty `MemStore`, for every
seed list, every deterministic Fetcher and every worker count that fits the
`int32` counter of the WaitGroup. The seeding and `wg.Add` return, `Workers` is
the count given or 2 when that is not positive, and some interleaving makes
`Run` return. In every interleaving: the number of steps is bounded, no step
panics, some thread can move until `Run` has returned, and once it has returned
every started worker has exited, the store holds one page per distinct seed
whose `Fetch` succeeds and none for the others, and `Count` is their number. -/
theorem Run_saves_each_fetched_seed_once (workers : Int) (fetcher : Fetcher)
    (seeds : List GoString) (hmax : workers ≤ maxInt32) :
    ∃ s0, Run.start ⟨workers, fetcher, NewMem⟩ seeds = .done s0 ∧
      s0.Workers = (if workers ≤ 0 then 2 else workers) ∧
      (∃ sched s, Run.run fetcher sched s0 = .done s ∧ s.main = .returned) ∧
      ∀ sched s, Run.run fetcher sched s0 = .done s →
        sched.length + Run.measure s ≤ Run.measure s0 ∧
        (∀ t, Run.step fetcher t s ≠ .panic) ∧
        (s.main ≠ .returned → ∃ t s1, Run.step fetcher t s = .done s1) ∧
        (s.main = .returned →
          (∀ w ∈ s.workers, w = .exited) ∧
          (s.workers.length : Int) = s0.Workers ∧
          (s.store.pages : Multiset Page) =
            (((firstOccurrences seeds).filterMap (Run.pageOf fetcher) : List Page) :
              Multiset Page) ∧
          s.store.Count = .done (s.store,
            ((seeds.toFinset.filter (fun u => (fetcher u).2 = none)).card : Int))) := by
  have inv0 := Run.start_inv workers fetcher seeds hmax
  refine ⟨_, Run.start_eq workers fetcher seeds hmax, rfl,
    Run.exists_returning_run fetcher _ _ _ le_rfl inv0, ?_⟩
  intro sched s hrun
  have inv := Run.run_inv fetcher _ sched _ s hrun inv0
  refine ⟨Run.run_measure fetcher sched _ s hrun,
    fun t => Run.step_ne_panic fetcher _ t s inv,
    Run.progress fetcher _ s inv, ?_⟩
  intro hr
  obtain ⟨hall, hlen, _, hpages⟩ := Run.returned_store fetcher _ s inv hr
  refine ⟨hall, ?_, hpages, ?_⟩
  · rw [hlen, Run.run_Workers fetcher sched _ s hrun]
  · rw [MemStore.Count_unlocked _ inv.store_unlocked]
    have hcard := congrArg Multiset.card hpages
    simp only [Multiset.coe_card] at hcard
    rw [hcard, Run.length_pages_eq_card]

theorem Run_saves_each_fetched_seed_once_witness :
    (2 : Int) ≤ maxInt32 ∧
    ∃ s0, Run.start ⟨2, Run.fakeFetcher, NewMem⟩
        [lit "https://a.com", lit "https://a.com", lit "https://b.com"] = .done s0 ∧
      s0.Workers = (if (2 : Int) ≤ 0 then 2 else 2) ∧
      (∃ sched s, Run.run Run.fakeFetcher sched s0 = .done s ∧ s.main = .returned) ∧
      ∀ sched s, Run.run Run.fakeFetcher sched s0 = .done s →
        sched.length + Run.measure s ≤ Run.measure s0 ∧
        (∀ t, Run.step Run.fakeFetcher t s ≠ .panic) ∧
        (s.main ≠ .returned → ∃ t s1, Run.step Run.fakeFetcher t s = .done s1) ∧
        (s.main = .returned →
          (∀ w ∈ s.workers, w = .exited) ∧
          (s.workers.length : Int) = s0.Workers ∧
          (s.store.pages : Multiset Page) =
            (((firstOccurrences
                [lit "https://a.com", lit "https://a.com", lit "https://b.com"]).filterMap
                (Run.pageOf Run.fakeFetcher) : List Page) : Multiset Page) ∧
          s.store.Count = .done (s.store,
            (([lit "https://a.com", lit "https://a.com", lit "https://b.com"].toFinset.filter
              (fun u => (Run.fakeFetcher u).2 = none)).card : Int))) :=
  ⟨by decide,
    Run_saves_each_fetched_seed_once 2 Run.fakeFetcher
      [lit "https://a.com", lit "https://a.com", lit "https://b.com"] (by decide)⟩

/-- C5, against the claim as written: with `Workers` set to 2^31, one seed and a
Fetcher that succeeds for it, the seeding returns and `wg.Add(p.Workers)` then
panics, the counter wrapping to -2^31: `Run` does not return and starts no
worker, so the seed, which counts as one fetched page, is never fetched nor
saved. -/
theorem Run_panics_at_two_pow_31 :
    seedLoop (New 1) [lit "https://a.com"] =
      .done { New 1 with seen := {lit "https://a.com"},
                         ch := { (New 1).ch with buf := [lit "https://a.com"] } } ∧
    wrapInt32 (0 + 2147483648) = -2147483648 ∧
    WaitGroup.Add 0 2147483648 = .panic ∧
    Run.start ⟨2147483648, Run.fakeFetcher, NewMem⟩ [lit "https://a.com"] = .panic ∧
    ([lit "https://a.com"].toFinset.filter (fun u => (Run.fakeFetcher u).2 = none)).card
      = 1 := by
  refine ⟨by rfl, by decide, by decide, by rfl, by rfl⟩

/-- Scenario A: seeds `a, a, b`, two workers, a Fetcher that always succeeds.
Under the interleaving given `Run` returns with two pages stored. -/
theorem Run_scenario_A :
    ∃ s0 s,
      Run.start ⟨2, Run.fakeFetcher, NewMem⟩
        [lit "https://a.com", lit "https://a.com", lit "https://b.com"] = .done s0 ∧
      Run.run Run.fakeFetcher Run.scenarioASchedule s0 = .done s ∧
      s.main = .returned ∧
      s.store.pages = [⟨lit "https://a.com", 48, 1⟩, ⟨lit "https://b.com", 48, 1⟩] ∧
      s.store.Count = .done (s.store, 2) := by
  refine ⟨⟨2, ⟨false, insert (lit "https://b.com") (insert (lit "https://a.com") ∅),
      ⟨[lit "https://a.com", lit "https://b.com"], 3, false⟩, false⟩, NewMem, 2, .spawn 0, []⟩,
    ⟨2, ⟨false, insert (lit "https://b.com") (insert (lit "https://a.com") ∅),
      ⟨[], 3, true⟩, true⟩,
      ⟨false, [⟨lit "https://a.com", 48, 1⟩, ⟨lit "https://b.com", 48, 1⟩]⟩, 0, .returned,
      [.exited, .exited]⟩, ?_, ?_, rfl, rfl, ?_⟩
  · rfl
  · rfl
  · rfl

/-- Scenario B: three distinct seeds, a worker count left at zero, a Fetcher
that fails for one of them. Under the interleaving given `Run` starts two
workers and returns with two pages stored. -/
theorem Run_scenario_B :
    ∃ s0 s,
      Run.start ⟨0, Run.failingFetcher, NewMem⟩
        [lit "https://a.com", lit "https://b.com", lit "https://c.com"] = .done s0 ∧
      Run.run Run.failingFetcher Run.scenarioBSchedule s0 = .done s ∧
      s.main = .returned ∧ s.workers = [.exited, .exited] ∧
      s.store.pages = [⟨lit "https://a.com", 48, 1⟩, ⟨lit "https://c.com", 48, 1⟩] ∧
      s.store.Count = .done (s.store, 2) := by
  refine ⟨⟨2, ⟨false, insert (lit "https://c.com") (insert (lit "https://b.com")
        (insert (lit "https://a.com") ∅)),
      ⟨[lit "https://a.com", lit "https://b.com", lit "https://c.com"], 3, false⟩, false⟩,
      NewMem, 2, .spawn 0, []⟩,
    ⟨2, ⟨false, insert (lit "https://c.com") (insert (lit "https://b.com")
        (insert (lit "https://a.com") ∅)),
      ⟨[], 3, true⟩, true⟩,
      ⟨false, [⟨lit "https://a.com", 48, 1⟩, ⟨lit "https://c.com", 48, 1⟩]⟩, 0, .returned,
      [.exited, .exited]⟩, ?_, ?_, rfl, rfl, rfl, ?_⟩
  · rfl
  · rfl
  · rfl

/-! ## The mutex of the store under concurrent `Save` calls -/

namespace StoreConc

theorem Thread.save_step_holds (t t1 : Thread) (m m1 : MemStore)
    (h : t.step m = .done (t1, m1)) :
    t1.holding + (if m.mu then 1 else 0) = t.holding + (if m1.mu then 1 else 0) := by
  unfold Thread.holding
  rcases t with ⟨pc, todo⟩
  rcases m with ⟨mu, pages⟩
  cases pc with
  | idle =>
    cases todo with
    | nil => simp [Thread.step] at h
    | cons p rest =>
      simp [Thread.step] at h
      obtain ⟨h1, h2⟩ := h
      subst h1 h2
      simp [Pc.holds]
  | saveLock p =>
    cases mu <;> simp [Thread.step, Mutex.Lock] at h
    obtain ⟨h1, h2⟩ := h
    subst h1 h2
    simp [Pc.holds]
  | saveRead p =>
    simp [Thread.step] at h
    obtain ⟨h1, h2⟩ := h
    subst h1 h2
    simp [Pc.holds]
  | saveWrite p old =>
    simp [Thread.step] at h
    obtain ⟨h1, h2⟩ := h
    subst h1 h2
    simp [Pc.holds]
  | saveUnlock =>
    cases mu <;> simp [Thread.step, Mutex.Unlock] at h
    obtain ⟨h1, h2⟩ := h
    subst h1 h2
    simp [Pc.holds]

/-- What one statement does to the pages stored and still to append. -/
theorem Thread.save_step_pages (t t1 : Thread) (m m1 : MemStore)
    (h : t.step m = .done (t1, m1)) :
    (∀ p old, t1.pc = .saveWrite p old → old = m1.pages) ∧
    (m1.pages = m.pages ∨ t.holding = 1) ∧
    ((∀ p old, t.pc = .saveWrite p old → old = m.pages) →
      (m1.pages : Multiset Page) + t1.pending = (m.pages : Multiset Page) + t.pending) := by
  rcases t with ⟨pc, todo⟩
  rcases m with ⟨mu, pages⟩
  cases pc with
  | idle =>
    cases todo with
    | nil => simp [Thread.step] at h
    | cons p rest =>
      simp [Thread.step] at h
      obtain ⟨h1, h2⟩ := h
      subst h1 h2
      refine ⟨by simp, Or.inl rfl, fun _ => ?_⟩
      simp only [Thread.pending, zero_add]
      rw [← Multiset.cons_coe, ← Multiset.singleton_add]
  | saveLock p =>
    cases mu <;> simp [Thread.step, Mutex.Lock] at h
    obtain ⟨h1, h2⟩ := h
    subst h1 h2
    exact ⟨by simp, Or.inl rfl, fun _ => by simp [Thread.pending]⟩
  | saveRead p =>
    simp [Thread.step] at h
    obtain ⟨h1, h2⟩ := h
    subst h1 h2
    refine ⟨?_, Or.inl rfl, fun _ => by simp [Thread.pending]⟩
    intro q old hq
    simp only [Pc.saveWrite.injEq] at hq
    exact hq.2.symm
  | saveWrite p old =>
    simp [Thread.step] at h
    obtain ⟨h1, h2⟩ := h
    subst h1 h2
    refine ⟨by simp, Or.inr (by simp [Thread.holding, Pc.holds]), ?_⟩
    intro hfresh
    have := hfresh p old rfl
    subst this
    simp only [Thread.pending]
    rw [← Multiset.coe_add, Multiset.coe_singleton]
    abel
  | saveUnlock =>
    cases mu <;> simp [Thread.step, Mutex.Unlock] at h
    obtain ⟨h1, h2⟩ := h
    subst h1 h2
    exact ⟨by simp, Or.inl rfl, fun _ => by simp [Thread.pending]⟩

theorem Thread.save_step_rank (t t1 : Thread) (m m1 : MemStore)
    (h : t.step m = .done (t1, m1)) : t1.rank < t.rank := by
  rcases t with ⟨pc, todo⟩
  rcases m with ⟨mu, pages⟩
  cases pc with
  | idle =>
    cases todo with
    | nil => simp [Thread.step] at h
    | cons p rest =>
      simp [Thread.step] at h
      obtain ⟨h1, h2⟩ := h
      subst h1 h2
      simp only [Thread.rank, List.length_cons]
      omega
  | saveLock p =>
    cases mu <;> simp [Thread.step, Mutex.Lock] at h
    obtain ⟨h1, h2⟩ := h
    subst h1 h2
    simp only [Thread.rank]
    omega
  | saveRead p =>
    simp [Thread.step] at h
    obtain ⟨h1, h2⟩ := h
    subst h1 h2
    simp only [Thread.rank]
    omega
  | saveWrite p old =>
    simp [Thread.step] at h
    obtain ⟨h1, h2⟩ := h
    subst h1 h2
    simp only [Thread.rank]
    omega
  | saveUnlock =>
    cases mu <;> simp [Thread.step, Mutex.Unlock] at h
    obtain ⟨h1, h2⟩ := h
    subst h1 h2
    simp only [Thread.rank]
    omega

theorem Sys.save_step_safe (all : List Page) (i : Nat) (s s1 : Sys) (h : s.step i = .done s1)
    (safe : s.Safe all) : s1.Safe all := by
  unfold Sys.step at h
  cases ht : s.threads[i]? with
  | none => simp [ht] at h
  | some t =>
    simp only [ht] at h
    cases hstep : t.step s.store with
    | done r =>
      obtain ⟨t1, m1⟩ := r
      simp [hstep] at h
      subst h
      have hl := Thread.save_step_holds t t1 s.store m1 hstep
      obtain ⟨hnew, hsame, hpg⟩ := Thread.save_step_pages t t1 s.store m1 hstep
      have hsum := sum_map_set Thread.holding s.threads i t t1 ht
      have hpend := sum_map_set Thread.pending s.threads i t t1 ht
      have hmut := safe.mutex
      refine ⟨?_, ?_, ?_⟩
      · show (List.map Thread.holding (s.threads.set i t1)).sum = if m1.mu = true then 1 else 0
        omega
      · intro j tj p old hj hpc
        show old = m1.pages
        by_cases hij : j = i
        · subst hij
          have hlt : j < s.threads.length := by
            rcases Nat.lt_or_ge j s.threads.length with h | h
            · exact h
            · rw [List.getElem?_eq_none h] at ht
              exact absurd ht (by simp)
          rw [List.getElem?_set_self hlt] at hj
          simp only [Option.some.injEq] at hj
          subst hj
          exact hnew p old hpc
        · rw [List.getElem?_set_ne (fun e => hij e.symm)] at hj
          have hold := safe.fresh j tj p old hj hpc
          rcases hsame with hs | hs
          · rw [hs]; exact hold
          · have htj : tj.holding = 1 := by simp [Thread.holding, hpc, Pc.holds]
            have htwo := add_le_sum_map_of_ne Thread.holding s.threads i j t tj
              (fun e => hij e.symm) ht hj
            have : (s.threads.map Thread.holding).sum ≤ 1 := by
              rw [hmut]; split_ifs <;> omega
            omega
      · have h1 := hpg (fun p old hpc => safe.fresh i t p old ht hpc)
        have h2 := safe.pages
        show (m1.pages : Multiset Page) + (List.map Thread.pending (s.threads.set i t1)).sum = _
        rw [← h2]
        have e1 : (m1.pages : Multiset Page) + (List.map Thread.pending (s.threads.set i t1)).sum
            + t.pending = (s.store.pages : Multiset Page) +
              (List.map Thread.pending s.threads).sum + t.pending := by
          calc (m1.pages : Multiset Page) + (List.map Thread.pending (s.threads.set i t1)).sum
                + t.pending
              = (m1.pages : Multiset Page) +
                  ((List.map Thread.pending (s.threads.set i t1)).sum + t.pending) := by abel
            _ = (m1.pages : Multiset Page) +
                  ((List.map Thread.pending s.threads).sum + t1.pending) := by rw [hpend]
            _ = ((m1.pages : Multiset Page) + t1.pending) +
                  (List.map Thread.pending s.threads).sum := by abel
            _ = ((s.store.pages : Multiset Page) + t.pending) +
                  (List.map Thread.pending s.threads).sum := by rw [h1]
            _ = _ := by abel
        exact add_right_cancel e1
    | blocked => simp [hstep] at h
    | panic => simp [hstep] at h

theorem Sys.save_step_total_rank (i : Nat) (s s1 : Sys) (h : s.step i = .done s1) :
    (s1.threads.map Thread.rank).sum < (s.threads.map Thread.rank).sum := by
  unfold Sys.step at h
  cases ht : s.threads[i]? with
  | none => simp [ht] at h
  | some t =>
    simp only [ht] at h
    cases hstep : t.step s.store with
    | done r =>
      obtain ⟨t1, m1⟩ := r
      simp [hstep] at h
      subst h
      have := Thread.save_step_rank t t1 s.store m1 hstep
      have hsum := sum_map_set Thread.rank s.threads i t t1 ht
      show (List.map Thread.rank (s.threads.set i t1)).sum < _
      omega
    | blocked => simp [hstep] at h
    | panic => simp [hstep] at h

theorem Sys.save_init_safe (progs : List (List Page)) : (Sys.init progs).Safe progs.flatten := by
  refine ⟨?_, ?_, ?_⟩
  · simp only [Sys.init, NewMem, List.map_map]
    induction progs with
    | nil => simp
    | cons p ps ih => simpa [Thread.holding, Pc.holds] using ih
  · intro i t p old hi hpc
    simp only [Sys.init, List.getElem?_map] at hi
    cases hp : progs[i]? with
    | none => simp [hp] at hi
    | some ps =>
      simp [hp] at hi
      subst hi
      simp at hpc
  · simp only [Sys.init, NewMem, List.map_map]
    induction progs with
    | nil => simp
    | cons p ps ih =>
      simp only [List.map_cons, List.sum_cons, List.flatten_cons, Function.comp_apply,
        Thread.pending, zero_add] at ih ⊢
      rw [← Multiset.coe_add, ← ih]
      simp

theorem Sys.save_run_safe (all : List Page) (sched : List Nat) (s s1 : Sys)
    (h : Sys.run sched s = .done s1) (safe : s.Safe all) :
    s1.Safe all ∧ sched.length + (s1.threads.map Thread.rank).sum ≤
      (s.threads.map Thread.rank).sum := by
  induction sched generalizing s with
  | nil =>
    simp [Sys.run] at h
    subst h
    exact ⟨safe, by simp⟩
  | cons i rest ih =>
    simp only [Sys.run] at h
    obtain ⟨s2, h2, h3⟩ := Outcome.bind_eq_done.mp h
    obtain ⟨hs, hr⟩ := ih s2 h3 (Sys.save_step_safe all i s s2 h2 safe)
    have := Sys.save_step_total_rank i s s2 h2
    refine ⟨hs, ?_⟩
    simp only [List.length_cons]
    omega

/-- Some goroutine of which work is left can always run its next statement. -/
theorem Sys.save_progress (all : List Page) (s : Sys) (safe : s.Safe all)
    (hleft : 0 < (s.threads.map Thread.rank).sum) : ∃ i s1, s.step i = .done s1 := by
  cases hmu : s.store.mu with
  | true =>
    have hm := safe.mutex
    rw [hmu] at hm
    obtain ⟨i, t, hi, hpos⟩ := exists_pos_of_sum_map_pos Thread.holding s.threads
      (by rw [hm]; simp)
    rcases t with ⟨pc, todo⟩
    cases pc with
    | idle => simp [Thread.holding, Pc.holds] at hpos
    | saveLock p => simp [Thread.holding, Pc.holds] at hpos
    | saveRead p =>
      exact ⟨i, ⟨s.store, s.threads.set i ⟨.saveWrite p s.store.pages, todo⟩⟩, by
        simp [Sys.step, hi, Thread.step]⟩
    | saveWrite p old =>
      exact ⟨i, ⟨{ s.store with pages := old ++ [p] }, s.threads.set i ⟨.saveUnlock, todo⟩⟩, by
        simp [Sys.step, hi, Thread.step]⟩
    | saveUnlock =>
      exact ⟨i, ⟨{ s.store with mu := false }, s.threads.set i ⟨.idle, todo⟩⟩, by
        simp [Sys.step, hi, Thread.step, Mutex.Unlock, hmu]⟩
  | false =>
    obtain ⟨i, t, hi, hpos⟩ := exists_pos_of_sum_map_pos Thread.rank s.threads hleft
    have hm := safe.mutex
    rw [hmu] at hm
    have hzero : t.holding = 0 := by
      have := le_sum_map_of_getElem? Thread.holding s.threads i t hi
      rw [hm] at this
      simpa using this
    rcases t with ⟨pc, todo⟩
    cases pc with
    | idle =>
      cases todo with
      | nil => simp [Thread.rank] at hpos
      | cons p rest =>
        exact ⟨i, ⟨s.store, s.threads.set i ⟨.saveLock p, rest⟩⟩, by
          simp [Sys.step, hi, Thread.step]⟩
    | saveLock p =>
      exact ⟨i, ⟨{ s.store with mu := true }, s.threads.set i ⟨.saveRead p, todo⟩⟩, by
        simp [Sys.step, hi, Thread.step, Mutex.Lock, hmu]⟩
    | saveRead p => simp [Thread.holding, Pc.holds] at hzero
    | saveWrite p old => simp [Thread.holding, Pc.holds] at hzero
    | saveUnlock => simp [Thread.holding, Pc.holds] at hzero

theorem Sys.save_init_rank (progs : List (List Page)) :
    ((Sys.init progs).threads.map Thread.rank).sum = 5 * progs.flatten.length := by
  simp only [Sys.init, List.map_map]
  induction progs with
  | nil => simp
  | cons p ps ih =>
    simp only [List.map_cons, List.sum_cons, Function.comp_apply, Thread.rank,
      List.flatten_cons, List.length_append] at ih ⊢
    omega

/-- Goroutines saving concurrently into one store made by `NewMem`, each `Save`
run statement by statement under any interleaving: the number of steps is
bounded, some goroutine can move while work is left, and once every `Save` has
returned the mutex is free, the store holds each saved page exactly once and
`Count` returns their number. -/
theorem concurrent_saves (progs : List (List Page)) (sched : List Nat) (s : Sys)
    (hrun : Sys.run sched (Sys.init progs) = .done s) :
    sched.length ≤ 5 * progs.flatten.length ∧
    (0 < (s.threads.map Thread.rank).sum → ∃ i s1, s.step i = .done s1) ∧
    ((s.threads.map Thread.rank).sum = 0 →
      (s.store.pages : Multiset Page) = (progs.flatten : Multiset Page) ∧
      s.store.Count = .done (s.store, (progs.flatten.length : Int))) := by
  obtain ⟨safe, hlen⟩ := Sys.save_run_safe progs.flatten sched _ s hrun (Sys.save_init_safe progs)
  have hinit := Sys.save_init_rank progs
  refine ⟨by omega, Sys.save_progress progs.flatten s safe, ?_⟩
  intro hdone
  have hall := eq_zero_of_sum_map_eq_zero Thread.rank s.threads hdone
  have hidle : ∀ t ∈ s.threads, t.pending = 0 ∧ t.holding = 0 := by
    intro t ht
    have h0 := hall t ht
    rcases t with ⟨pc, todo⟩
    cases pc <;> simp [Thread.rank] at h0
    subst h0
    simp [Thread.pending, Thread.holding, Pc.holds]
  have hpend : (s.threads.map Thread.pending).sum = 0 := by
    have : ∀ l : List Thread, (∀ t ∈ l, t.pending = 0) → (l.map Thread.pending).sum = 0 := by
      intro l
      induction l with
      | nil => simp
      | cons x xs ih =>
        intro hx
        simp only [List.map_cons, List.sum_cons, hx x (List.mem_cons_self _ _), zero_add]
        exact ih (fun t ht => hx t (List.mem_cons_of_mem _ ht))
    exact this _ (fun t ht => (hidle t ht).1)
  have hhold : (s.threads.map Thread.holding).sum = 0 := by
    have : ∀ l : List Thread, (∀ t ∈ l, t.holding = 0) → (l.map Thread.holding).sum = 0 := by
      intro l
      induction l with
      | nil => simp
      | cons x xs ih =>
        intro hx
        simp only [List.map_cons, List.sum_cons, hx x (List.mem_cons_self _ _), zero_add]
        exact ih (fun t ht => hx t (List.mem_cons_of_mem _ ht))
    exact this _ (fun t ht => (hidle t ht).2)
  have hmu : s.store.mu = false := by
    have := safe.mutex
    rw [hhold] at this
    cases h : s.store.mu with
    | false => rfl
    | true => simp [h] at this
  have hp := safe.pages
  rw [hpend, add_zero] at hp
  refine ⟨hp, ?_⟩
  rw [MemStore.Count_unlocked _ hmu]
  have hcard := congrArg Multiset.card hp
  simp only [Multiset.coe_card] at hcard
  rw [hcard]

end StoreConc

end Capstone
